import Mathlib

/-!
Verification of the e-commerce skills repository's two pipeline scripts:
the Shopify product exporter (`scripts/export-products.js`) and the batched
AI description generator (`scripts/generate-descriptions.js`).

The development shallowly embeds the data model and operations of the two
scripts.  JavaScript objects flowing through the pipelines are modelled by
an inductive `Json` type; `JSON.stringify` / `JSON.parse` are modelled by
an executable serializer and recursive-descent reader over character lists
(the reader covers the whitespace-free integer fragment of the JSON
grammar, which is the exact range of the serializer and hence of every
output line the scripts print).  Stateful loops (the paginated fetcher,
the stdin line reader, the batcher) are modelled as explicit folds over
input lists, with fuel where the source loop is driven by a remote server.
-/

namespace ECom

/-! ## JSON values

A JSON value as produced by `JSON.parse` / consumed by `JSON.stringify`.
Numbers are modelled as integers: every numeric field the scripts touch
(ids, counts, inventory) is integral, and float formatting is outside the
model. -/

inductive Json where
  | null
  | bool (b : Bool)
  | num (n : Int)
  | str (s : String)
  | arr (items : List Json)
  | obj (fields : List (String × Json))

/-! ## Serialization (`JSON.stringify`) -/

/-- Lower-case hex digit for a nibble, as emitted in `\u00XX` escapes. -/
def hexDigitChar (n : Nat) : Char :=
  if n < 10 then Char.ofNat (48 + n) else Char.ofNat (87 + n)

/-- How `JSON.stringify` escapes one character inside a string literal:
quote and backslash get a backslash, the five named control characters get
their short escapes, other control characters get `\u00XX`, and everything
else is emitted verbatim. -/
def escapeChar (c : Char) : List Char :=
  if c = '"' then ['\\', '"']
  else if c = '\\' then ['\\', '\\']
  else if c = '\x08' then ['\\', 'b']
  else if c = '\x09' then ['\\', 't']
  else if c = '\x0a' then ['\\', 'n']
  else if c = '\x0c' then ['\\', 'f']
  else if c = '\x0d' then ['\\', 'r']
  else if c.toNat < 32 then
    '\\' :: 'u' :: '0' :: '0' :: hexDigitChar (c.toNat / 16) :: [hexDigitChar (c.toNat % 16)]
  else [c]

/-- A string literal: opening quote, escaped characters, closing quote. -/
def quoteString (s : String) : List Char :=
  '"' :: ((s.data.map escapeChar).flatten ++ ['"'])

/-- Decimal digits of a natural number, most significant first. -/
def natChars (n : Nat) : List Char :=
  if n < 10 then [Char.ofNat (48 + n)]
  else natChars (n / 10) ++ [Char.ofNat (48 + n % 10)]
termination_by n
decreasing_by exact Nat.div_lt_self (by omega) (by omega)

/-- Decimal rendering of an integer. -/
def intChars (n : Int) : List Char :=
  if n < 0 then '-' :: natChars n.natAbs else natChars n.toNat

mutual

/-- Serialize a JSON value to its character sequence, exactly as
`JSON.stringify` renders it (no added whitespace). -/
def stringifyVal : Json → List Char
  | .null => 'n' :: ['u', 'l', 'l']
  | .bool true => 't' :: ['r', 'u', 'e']
  | .bool false => 'f' :: ['a', 'l', 's', 'e']
  | .num n => intChars n
  | .str s => quoteString s
  | .arr items => '[' :: (stringifyItems items ++ [']'])
  | .obj fields => '{' :: (stringifyFields fields ++ ['}'])

/-- Array elements joined by commas. -/
def stringifyItems : List Json → List Char
  | [] => []
  | v :: vs => stringifyVal v ++ stringifyItemsTail vs

/-- Remaining array elements, each preceded by a comma. -/
def stringifyItemsTail : List Json → List Char
  | [] => []
  | v :: vs => ',' :: (stringifyVal v ++ stringifyItemsTail vs)

/-- Object members joined by commas, each a quoted key, a colon, a value. -/
def stringifyFields : List (String × Json) → List Char
  | (k, v) :: fs => quoteString k ++ ':' :: (stringifyVal v ++ stringifyFieldsTail fs)
  | [] => []

/-- Remaining object members, each preceded by a comma. -/
def stringifyFieldsTail : List (String × Json) → List Char
  | (k, v) :: fs => ',' :: (quoteString k ++ ':' :: (stringifyVal v ++ stringifyFieldsTail fs))
  | [] => []

end

/-- `JSON.stringify` on the model. -/
def jsonStringify (v : Json) : String := String.mk (stringifyVal v)

/-! ## Reading (`JSON.parse`) -/

/-- Decimal digit character test (`'0'` through `'9'`). -/
def isDigitChar (c : Char) : Bool := 48 ≤ c.toNat && c.toNat ≤ 57

/-- Split off a maximal run of leading decimal digits. -/
def takeDigits : List Char → List Char × List Char
  | [] => ([], [])
  | c :: cs =>
    if isDigitChar c then
      let (ds, r) := takeDigits cs
      (c :: ds, r)
    else ([], c :: cs)

/-- Numeric value of a digit run. -/
def digitsVal (ds : List Char) : Nat :=
  ds.foldl (fun a c => a * 10 + (c.toNat - 48)) 0

/-- Value of one hex digit, if it is one. -/
def hexDigitVal (c : Char) : Option Nat :=
  if 48 ≤ c.toNat && c.toNat ≤ 57 then some (c.toNat - 48)
  else if 97 ≤ c.toNat && c.toNat ≤ 102 then some (c.toNat - 87)
  else if 65 ≤ c.toNat && c.toNat ≤ 70 then some (c.toNat - 55)
  else none

/-- Value of a four-hex-digit escape payload. -/
def hexQuad (a b c d : Char) : Option Nat := do
  let va ← hexDigitVal a
  let vb ← hexDigitVal b
  let vc ← hexDigitVal c
  let vd ← hexDigitVal d
  return ((va * 16 + vb) * 16 + vc) * 16 + vd

/-- The character named by a short escape, if the escape is legal. -/
def shortEscape (e : Char) : Option Char :=
  if e = '"' then some '"'
  else if e = '\\' then some '\\'
  else if e = '/' then some '/'
  else if e = 'b' then some '\x08'
  else if e = 't' then some '\x09'
  else if e = 'n' then some '\x0a'
  else if e = 'f' then some '\x0c'
  else if e = 'r' then some '\x0d'
  else none

/-- Read a string literal body after the opening quote.  `acc` holds the
characters read so far, in reverse. -/
def readStringBody (acc : List Char) : List Char → Option (String × List Char)
  | '"' :: rest => some (String.mk acc.reverse, rest)
  | '\\' :: 'u' :: h1 :: h2 :: h3 :: h4 :: rest =>
    match hexQuad h1 h2 h3 h4 with
    | some n => readStringBody (Char.ofNat n :: acc) rest
    | none => none
  | '\\' :: e :: rest =>
    match shortEscape e with
    | some ch => readStringBody (ch :: acc) rest
    | none => none
  | c :: rest => readStringBody (c :: acc) rest
  | [] => none

mutual

/-- Read one JSON value.  The fuel argument only bounds recursion depth;
`readTop` supplies enough for any input (proved by the round-trip
development below). -/
def readVal : Nat → List Char → Option (Json × List Char)
  | 0, _ => none
  | _ + 1, 'n' :: 'u' :: 'l' :: 'l' :: r => some (.null, r)
  | _ + 1, 't' :: 'r' :: 'u' :: 'e' :: r => some (.bool true, r)
  | _ + 1, 'f' :: 'a' :: 'l' :: 's' :: 'e' :: r => some (.bool false, r)
  | _ + 1, '"' :: r =>
    match readStringBody [] r with
    | some (s, r2) => some (.str s, r2)
    | none => none
  | fuel + 1, '[' :: r =>
    match r with
    | ']' :: r2 => some (.arr [], r2)
    | _ =>
      match readItems fuel r with
      | some (vs, r2) => some (.arr vs, r2)
      | none => none
  | fuel + 1, '{' :: r =>
    match r with
    | '}' :: r2 => some (.obj [], r2)
    | _ =>
      match readFields fuel r with
      | some (fs, r2) => some (.obj fs, r2)
      | none => none
  | _ + 1, '-' :: r =>
    match takeDigits r with
    | ([], _) => none
    | (ds, r2) => some (.num (-(digitsVal ds : Int)), r2)
  | _ + 1, c :: r =>
    if isDigitChar c then
      match takeDigits (c :: r) with
      | (ds, r2) => some (.num (digitsVal ds), r2)
    else none
  | _ + 1, [] => none

/-- Read one or more comma-separated array elements and the closing
bracket. -/
def readItems : Nat → List Char → Option (List Json × List Char)
  | 0, _ => none
  | fuel + 1, cs =>
    match readVal fuel cs with
    | none => none
    | some (v, r) =>
      match r with
      | ',' :: r2 =>
        match readItems fuel r2 with
        | some (vs, r3) => some (v :: vs, r3)
        | none => none
      | ']' :: r2 => some ([v], r2)
      | _ => none

/-- Read one or more comma-separated object members and the closing
brace. -/
def readFields : Nat → List Char → Option (List (String × Json) × List Char)
  | 0, _ => none
  | fuel + 1, cs =>
    match cs with
    | '"' :: r =>
      match readStringBody [] r with
      | none => none
      | some (k, r1) =>
        match r1 with
        | ':' :: r2 =>
          match readVal fuel r2 with
          | none => none
          | some (v, r3) =>
            match r3 with
            | ',' :: r4 =>
              match readFields fuel r4 with
              | some (fs, r5) => some ((k, v) :: fs, r5)
              | none => none
            | '}' :: r4 => some ([(k, v)], r4)
            | _ => none
        | _ => none
    | _ => none

end

/-- `JSON.parse` on the model: read one value and require the input to be
fully consumed. -/
def jsonParse (s : String) : Option Json :=
  match readVal (s.length + 1) s.data with
  | some (v, []) => some v
  | _ => none

/-! ## Round-trip: the reader inverts the serializer

The lemmas below culminate in `jsonParse_jsonStringify`: reading back a
serialized value recovers it exactly. -/

/-- A continuation that cannot extend a digit run: empty, or headed by a
non-digit.  Every delimiter following a serialized number (`,`, `]`, `}`,
end of input) qualifies. -/
def noDigitHead : List Char → Bool
  | [] => true
  | c :: _ => !(isDigitChar c)

theorem digitChar_toNat (k : Nat) (h : k < 10) : (Char.ofNat (48 + k)).toNat = 48 + k := by
  interval_cases k <;> decide

theorem digitChar_isDigit (k : Nat) (h : k < 10) : isDigitChar (Char.ofNat (48 + k)) = true := by
  interval_cases k <;> decide

theorem natChars_cons (n : Nat) : ∃ c t, natChars n = c :: t ∧ isDigitChar c = true := by
  induction n using Nat.strongRecOn with
  | _ n ih =>
    rw [natChars]
    by_cases h : n < 10
    · exact ⟨Char.ofNat (48 + n), [], by simp [h], digitChar_isDigit n h⟩
    · obtain ⟨c, t, hct, hc⟩ := ih (n / 10) (Nat.div_lt_self (by omega) (by omega))
      exact ⟨c, t ++ [Char.ofNat (48 + n % 10)], by simp [h, hct], hc⟩

theorem natChars_digits (n : Nat) : ∀ c ∈ natChars n, isDigitChar c = true := by
  induction n using Nat.strongRecOn with
  | _ n ih =>
    rw [natChars]
    by_cases h : n < 10
    · simpa [h] using digitChar_isDigit n h
    · intro c hc
      simp only [if_neg h, List.mem_append, List.mem_singleton] at hc
      rcases hc with hc | hc
      · exact ih (n / 10) (Nat.div_lt_self (by omega) (by omega)) c hc
      · subst hc; exact digitChar_isDigit _ (Nat.mod_lt _ (by omega))

theorem digitsVal_append_digit (ds : List Char) (c : Char) :
    digitsVal (ds ++ [c]) = digitsVal ds * 10 + (c.toNat - 48) := by
  simp [digitsVal, List.foldl_append]

theorem digitsVal_natChars (n : Nat) : digitsVal (natChars n) = n := by
  induction n using Nat.strongRecOn with
  | _ n ih =>
    rw [natChars]
    by_cases h : n < 10
    · simp [h, digitsVal, digitChar_toNat n h]
    · rw [if_neg h, digitsVal_append_digit, ih (n / 10) (Nat.div_lt_self (by omega) (by omega)),
        digitChar_toNat _ (Nat.mod_lt _ (by omega))]
      omega

theorem hexDigitVal_hexDigitChar (k : Nat) (h : k < 16) :
    hexDigitVal (hexDigitChar k) = some k := by
  interval_cases k <;> decide

theorem readStringBody_escape (c : Char) (acc rest : List Char) :
    readStringBody acc (escapeChar c ++ rest) = readStringBody (c :: acc) rest := by
  rw [escapeChar]
  split_ifs with h1 h2 h3 h4 h5 h6 h7 h8
  · subst h1; simp [readStringBody, shortEscape]
  · subst h2; simp [readStringBody, shortEscape]
  · subst h3; simp [readStringBody, shortEscape]
  · subst h4; simp [readStringBody, shortEscape]
  · subst h5; simp [readStringBody, shortEscape]
  · subst h6; simp [readStringBody, shortEscape]
  · subst h7; simp [readStringBody, shortEscape]
  · have hd : c.toNat / 16 < 16 := by omega
    have hm : c.toNat % 16 < 16 := Nat.mod_lt _ (by omega)
    simp only [List.cons_append, readStringBody, hexQuad,
      hexDigitVal_hexDigitChar _ hd, hexDigitVal_hexDigitChar _ hm]
    have h0 : hexDigitVal '0' = some 0 := by decide
    have harith : c.toNat / 16 * 16 + c.toNat % 16 = c.toNat := by omega
    simp [h0, harith, Char.ofNat_toNat]
  · simp only [List.cons_append, List.nil_append]
    rw [readStringBody.eq_def]
    split
    · rename_i heq; exact absurd (List.head_eq_of_cons_eq heq) h1
    · rename_i heq; exact absurd (List.head_eq_of_cons_eq heq) h2
    · rename_i heq; exact absurd (List.head_eq_of_cons_eq heq) h2
    · rename_i heq; cases heq; rfl
    · rename_i heq; exact absurd heq (List.cons_ne_nil c rest)

theorem readStringBody_quoted (s : List Char) : ∀ acc rest : List Char,
    readStringBody acc ((s.map escapeChar).flatten ++ '"' :: rest)
      = some (String.mk (acc.reverse ++ s), rest) := by
  induction s with
  | nil => intro acc rest; simp [readStringBody]
  | cons c cs ih =>
    intro acc rest
    rw [List.map_cons, List.flatten_cons, List.append_assoc, readStringBody_escape, ih]
    simp

theorem takeDigits_all (digs : List Char) (rest : List Char)
    (hds : ∀ c ∈ digs, isDigitChar c = true) (hr : noDigitHead rest = true) :
    takeDigits (digs ++ rest) = (digs, rest) := by
  induction digs with
  | nil =>
    match rest with
    | [] => rfl
    | c :: t =>
      simp only [noDigitHead, Bool.not_eq_true'] at hr
      simp [takeDigits, hr]
  | cons c cs ih =>
    have hc : isDigitChar c = true := hds c (by simp)
    simp only [List.cons_append, takeDigits, hc, if_true]
    rw [show cs.append rest = cs ++ rest from rfl, ih (fun x hx => hds x (by simp [hx]))]

set_option maxHeartbeats 1600000 in
theorem readVal_digitHead (f : Nat) (c : Char) (t : List Char) (h : isDigitChar c = true) :
    readVal (f + 1) (c :: t)
      = some (.num (digitsVal (takeDigits (c :: t)).1), (takeDigits (c :: t)).2) := by
  have hn : c ≠ 'n' := by rintro rfl; simp [isDigitChar] at h
  have ht : c ≠ 't' := by rintro rfl; simp [isDigitChar] at h
  have hf : c ≠ 'f' := by rintro rfl; simp [isDigitChar] at h
  have hq : c ≠ '"' := by rintro rfl; simp [isDigitChar] at h
  have hlb : c ≠ '[' := by rintro rfl; simp [isDigitChar] at h
  have hob : c ≠ '{' := by rintro rfl; simp [isDigitChar] at h
  have hm : c ≠ '-' := by rintro rfl; simp [isDigitChar] at h
  rw [readVal.eq_def]
  split
  · omega
  · rename_i heq; exact absurd (List.head_eq_of_cons_eq heq) hn
  · rename_i heq; exact absurd (List.head_eq_of_cons_eq heq) ht
  · rename_i heq; exact absurd (List.head_eq_of_cons_eq heq) hf
  · rename_i heq; exact absurd (List.head_eq_of_cons_eq heq) hq
  · rename_i heq; exact absurd (List.head_eq_of_cons_eq heq) hlb
  · rename_i heq; exact absurd (List.head_eq_of_cons_eq heq) hob
  · rename_i heq; exact absurd (List.head_eq_of_cons_eq heq) hm
  · rename_i heq
    cases heq
    simp [h]
  · rename_i heq; exact absurd heq (List.cons_ne_nil c t)

theorem readVal_natChars (f m : Nat) (rest : List Char) (hr : noDigitHead rest = true) :
    readVal (f + 1) (natChars m ++ rest) = some (.num (m : Int), rest) := by
  obtain ⟨c, t, hct, hc⟩ := natChars_cons m
  have hsplit : takeDigits (natChars m ++ rest) = (natChars m, rest) :=
    takeDigits_all _ _ (natChars_digits m) hr
  rw [hct, List.cons_append, readVal_digitHead f c (t ++ rest) hc, ← List.cons_append, ← hct,
    hsplit, digitsVal_natChars]

theorem readVal_intChars (f : Nat) (n : Int) (rest : List Char) (hr : noDigitHead rest = true) :
    readVal (f + 1) (intChars n ++ rest) = some (.num n, rest) := by
  rw [intChars]
  split_ifs with hneg
  · obtain ⟨c, t, hct, hc⟩ := natChars_cons n.natAbs
    have hsplit : takeDigits (natChars n.natAbs ++ rest) = (natChars n.natAbs, rest) :=
      takeDigits_all _ _ (natChars_digits _) hr
    rw [List.cons_append, readVal.eq_def]
    simp only [hct, List.cons_append]
    rw [← List.cons_append, ← hct, hsplit, hct]
    show some (Json.num (-(digitsVal (c :: t) : Int)), rest) = some (Json.num n, rest)
    rw [← hct, digitsVal_natChars, show -(n.natAbs : Int) = n by omega]
  · have : readVal (f + 1) (natChars n.toNat ++ rest) = some (.num (n.toNat : Int), rest) :=
      readVal_natChars f n.toNat rest hr
    rw [this, show ((n.toNat : Int)) = n by omega]

theorem stringifyVal_cons (v : Json) :
    ∃ c t, stringifyVal v = c :: t ∧ c ≠ ']' := by
  cases v with
  | null => exact ⟨_, _, rfl, by decide⟩
  | bool b => cases b with
    | true => exact ⟨_, _, rfl, by decide⟩
    | false => exact ⟨_, _, rfl, by decide⟩
  | num n =>
    rw [stringifyVal, intChars]
    split_ifs with hneg
    · exact ⟨'-', _, rfl, by decide⟩
    · obtain ⟨c, t, hct, hc⟩ := natChars_cons n.toNat
      refine ⟨c, t, hct, ?_⟩
      rintro rfl
      simp [isDigitChar] at hc
  | str s => exact ⟨'"', _, rfl, by decide⟩
  | arr items => exact ⟨'[', _, rfl, by decide⟩
  | obj fields => exact ⟨'{', _, rfl, by decide⟩

theorem stringMk_data (s : String) : String.mk s.data = s := rfl

theorem stringifyItemsTail_cons (x : Json) (xs : List Json) :
    stringifyItemsTail (x :: xs) = ',' :: stringifyItems (x :: xs) := by
  rw [stringifyItemsTail, stringifyItems]

theorem stringifyFieldsTail_cons (kv : String × Json) (fs : List (String × Json)) :
    stringifyFieldsTail (kv :: fs) = ',' :: stringifyFields (kv :: fs) := by
  obtain ⟨k, v⟩ := kv
  rw [stringifyFieldsTail, stringifyFields]

mutual

theorem rt_val : ∀ (v : Json) (fuel : Nat) (rest : List Char),
    (stringifyVal v).length < fuel → noDigitHead rest = true →
    readVal fuel (stringifyVal v ++ rest) = some (v, rest)
  | .null, fuel, rest, hf, _ => by
    match fuel, hf with
    | f + 1, _ => simp [stringifyVal, readVal]
  | .bool b, fuel, rest, hf, _ => by
    match fuel, hf with
    | f + 1, _ => cases b <;> simp [stringifyVal, readVal]
  | .num n, fuel, rest, hf, hr => by
    match fuel, hf with
    | f + 1, _ => exact readVal_intChars f n rest hr
  | .str s, fuel, rest, hf, _ => by
    match fuel, hf with
    | f + 1, _ =>
      have harg : stringifyVal (.str s) ++ rest
          = '"' :: ((s.data.map escapeChar).flatten ++ '"' :: rest) := by
        simp [stringifyVal, quoteString]
      rw [harg]
      simp [readVal, readStringBody_quoted]
  | .arr [], fuel, rest, hf, _ => by
    match fuel, hf with
    | f + 1, _ => simp [stringifyVal, stringifyItems, readVal]
  | .arr (e :: es), fuel, rest, hf, _ => by
    match fuel, hf with
    | f + 1, hf2 =>
      have hlen : (stringifyItems (e :: es)).length + 1 < f := by
        simp only [stringifyVal, List.length_cons, List.length_append,
          List.length_singleton] at hf2
        omega
      have key := rt_items e es f rest hlen
      have harg : stringifyVal (.arr (e :: es)) ++ rest
          = '[' :: (stringifyItems (e :: es) ++ ']' :: rest) := by
        simp [stringifyVal]
      rw [harg, readVal.eq_def]
      obtain ⟨c0, t0, hct, hc0⟩ := stringifyVal_cons e
      have hhead : stringifyItems (e :: es) ++ ']' :: rest
          = c0 :: (t0 ++ stringifyItemsTail es ++ ']' :: rest) := by
        simp [stringifyItems, hct]
      simp only [hhead]
      split
      · rename_i heq
        exact absurd (List.head_eq_of_cons_eq heq) hc0
      · rw [← hhead, key]
  | .obj [], fuel, rest, hf, _ => by
    match fuel, hf with
    | f + 1, _ => simp [stringifyVal, stringifyFields, readVal]
  | .obj (kv :: fs), fuel, rest, hf, _ => by
    match fuel, hf with
    | f + 1, hf2 =>
      have hlen : (stringifyFields (kv :: fs)).length + 1 < f := by
        simp only [stringifyVal, List.length_cons, List.length_append,
          List.length_singleton] at hf2
        omega
      have key := rt_fields kv fs f rest hlen
      have harg : stringifyVal (.obj (kv :: fs)) ++ rest
          = '{' :: (stringifyFields (kv :: fs) ++ '}' :: rest) := by
        simp [stringifyVal]
      rw [harg, readVal.eq_def]
      obtain ⟨k, v⟩ := kv
      have hhead : stringifyFields ((k, v) :: fs) ++ '}' :: rest
          = '"' :: (((k.data.map escapeChar).flatten ++ ['"'])
              ++ ':' :: (stringifyVal v ++ stringifyFieldsTail fs) ++ '}' :: rest) := by
        simp [stringifyFields, quoteString]
      simp only [hhead]
      split
      · rename_i heq
        exact absurd (List.head_eq_of_cons_eq heq) (by decide)
      · rw [← hhead, key]

theorem rt_items : ∀ (e : Json) (es : List Json) (fuel : Nat) (rest : List Char),
    (stringifyItems (e :: es)).length + 1 < fuel →
    readItems fuel (stringifyItems (e :: es) ++ ']' :: rest) = some (e :: es, rest)
  | e, [], fuel, rest, hf => by
    match fuel, hf with
    | f + 1, hf2 =>
      have hfe : (stringifyVal e).length < f := by
        simp only [stringifyItems, stringifyItemsTail, List.append_nil,
          List.length_append] at hf2
        omega
      have hv := rt_val e f (']' :: rest) hfe rfl
      have harg : stringifyItems (e :: []) ++ ']' :: rest = stringifyVal e ++ ']' :: rest := by
        simp [stringifyItems, stringifyItemsTail]
      rw [harg]
      simp only [readItems, hv]
  | e, x :: xs, fuel, rest, hf => by
    match fuel, hf with
    | f + 1, hf2 =>
      have hlens : (stringifyItems (e :: x :: xs)).length
          = (stringifyVal e).length + 1 + (stringifyItems (x :: xs)).length := by
        rw [stringifyItems, stringifyItemsTail_cons]
        simp
        omega
      have hfe : (stringifyVal e).length < f := by omega
      have hfx : (stringifyItems (x :: xs)).length + 1 < f := by omega
      have hv := rt_val e f (',' :: (stringifyItems (x :: xs) ++ ']' :: rest)) hfe rfl
      have key := rt_items x xs f rest hfx
      have harg : stringifyItems (e :: x :: xs) ++ ']' :: rest
          = stringifyVal e ++ ',' :: (stringifyItems (x :: xs) ++ ']' :: rest) := by
        rw [stringifyItems, stringifyItemsTail_cons]
        simp
      rw [harg]
      simp only [readItems, hv, key]

theorem rt_fields : ∀ (kv : String × Json) (fs : List (String × Json)) (fuel : Nat)
    (rest : List Char),
    (stringifyFields (kv :: fs)).length + 1 < fuel →
    readFields fuel (stringifyFields (kv :: fs) ++ '}' :: rest) = some (kv :: fs, rest)
  | (k, v), [], fuel, rest, hf => by
    match fuel, hf with
    | f + 1, hf2 =>
      have hfe : (stringifyVal v).length < f := by
        simp only [stringifyFields, stringifyFieldsTail, List.append_nil, List.length_append,
          List.length_cons, quoteString, List.length_singleton] at hf2
        omega
      have hv := rt_val v f ('}' :: rest) hfe rfl
      have harg : stringifyFields [(k, v)] ++ '}' :: rest
          = '"' :: ((k.data.map escapeChar).flatten
              ++ '"' :: (':' :: (stringifyVal v ++ '}' :: rest))) := by
        simp [stringifyFields, stringifyFieldsTail, quoteString]
      rw [harg]
      simp only [readFields, readStringBody_quoted, List.reverse_nil, List.nil_append,
        stringMk_data, hv]
  | (k, v), kv2 :: fs, fuel, rest, hf => by
    match fuel, hf with
    | f + 1, hf2 =>
      have hlens : (stringifyFields ((k, v) :: kv2 :: fs)).length
          = (quoteString k).length + 1 + (stringifyVal v).length + 1
            + (stringifyFields (kv2 :: fs)).length := by
        rw [stringifyFields, stringifyFieldsTail_cons]
        simp
        omega
      have hqk : 2 ≤ (quoteString k).length := by
        simp [quoteString]
      have hfe : (stringifyVal v).length < f := by omega
      have hfx : (stringifyFields (kv2 :: fs)).length + 1 < f := by omega
      have hv := rt_val v f (',' :: (stringifyFields (kv2 :: fs) ++ '}' :: rest)) hfe rfl
      have key := rt_fields kv2 fs f rest hfx
      have harg : stringifyFields ((k, v) :: kv2 :: fs) ++ '}' :: rest
          = '"' :: ((k.data.map escapeChar).flatten
              ++ '"' :: (':' :: (stringifyVal v
                ++ ',' :: (stringifyFields (kv2 :: fs) ++ '}' :: rest)))) := by
        rw [stringifyFields, stringifyFieldsTail_cons]
        simp [quoteString]
      rw [harg]
      simp only [readFields, readStringBody_quoted, List.reverse_nil, List.nil_append,
        stringMk_data, hv, key]

end

/-- Reading back a serialized value recovers it exactly, for every value. -/
theorem jsonParse_jsonStringify (v : Json) : jsonParse (jsonStringify v) = some v := by
  have hlen : (jsonStringify v).length = (stringifyVal v).length := rfl
  have hdata : (jsonStringify v).data = stringifyVal v := rfl
  have h := rt_val v ((stringifyVal v).length + 1) [] (by omega) rfl
  rw [List.append_nil] at h
  rw [jsonParse, hlen, hdata, h]

/-! ## The paginated fetcher (`export-products.js`, `fetchAllPages`)

A GraphQL connection page: `{edges:[{node}], pageInfo:{hasNextPage, endCursor}}`.
The remote endpoint is abstracted as a function from the request cursor to
the returned connection; `fetchLoop` is the source's `while (true)` loop,
with fuel standing in for the unbounded iteration (`none` means the loop
did not finish within the given fuel). -/

structure Edge (α : Type) where
  node : α

structure PageInfo where
  hasNextPage : Bool
  endCursor : Option String

structure Connection (α : Type) where
  edges : List (Edge α)
  pageInfo : PageInfo

/-- The body of `fetchAllPages`: issue a request at the current cursor,
append the page's nodes to the accumulator, stop when `hasNextPage` is
false, otherwise thread `endCursor` verbatim into the next request. -/
def fetchLoop (server : Option String → Connection α) :
    Nat → Option String → List α → Option (List α)
  | 0, _, _ => none
  | fuel + 1, cursor, acc =>
    let conn := server cursor
    let acc2 := acc ++ conn.edges.map Edge.node
    if conn.pageInfo.hasNextPage then
      fetchLoop server fuel conn.pageInfo.endCursor acc2
    else
      some acc2

/-- `fetchAllPages(query, variables, extract)`: run the loop from a null
cursor with an empty item list. -/
def fetchAllPages (server : Option String → Connection α) (fuel : Nat) : Option (List α) :=
  fetchLoop server fuel none []

/-! ### A simulated multi-page fixture -/

/-- Split a list into chunks: the page windows of a simulated collection
(also the shape of the generator's batching, proved later). -/
def chunksOf (size : Nat) : List α → List (List α)
  | [] => []
  | x :: xs => (x :: xs.take (size - 1)) :: chunksOf size (xs.drop (size - 1))
termination_by xs => xs.length
decreasing_by simp [List.length_drop]; omega

theorem chunksOf_flatten (size : Nat) (xs : List α) : (chunksOf size xs).flatten = xs := by
  suffices h : ∀ (n : Nat) (ys : List α), ys.length ≤ n → (chunksOf size ys).flatten = ys by
    exact h xs.length xs le_rfl
  intro n
  induction n with
  | zero =>
    intro ys hy
    match ys with
    | [] => simp [chunksOf]
  | succ n ih =>
    intro ys hy
    match ys with
    | [] => simp [chunksOf]
    | y :: ys =>
      rw [chunksOf, List.flatten_cons, ih (ys.drop (size - 1)) (by simp at hy ⊢; omega)]
      simp

/-- The `i`-th page of the fixture: its items are the `i`-th chunk, it
reports more pages exactly while chunks remain, and its end cursor encodes
the next page index (as an opaque string the fetcher must hand back
verbatim). -/
def pageAt (chunks : List (List α)) (i : Nat) : Connection α :=
  { edges := (chunks.getD i []).map Edge.mk
    pageInfo :=
      { hasNextPage := decide (i + 1 < chunks.length)
        endCursor := some (String.mk (List.replicate (i + 1) 'c')) } }

/-- The simulated server: a null cursor requests the first page, and the
cursor returned by page `i` requests page `i + 1`. -/
def simServer (chunks : List (List α)) : Option String → Connection α
  | none => pageAt chunks 0
  | some s => pageAt chunks s.data.length

theorem fetchLoop_sim (chunks : List (List α)) :
    ∀ (fuel i : Nat) (cur : Option String) (acc : List α),
    (match cur with | none => 0 | some s => s.data.length) = i →
    (i < chunks.length ∨ (chunks.length = 0 ∧ i = 0)) →
    chunks.length ≤ i + fuel → 0 < fuel →
    fetchLoop (simServer chunks) fuel cur acc = some (acc ++ (chunks.drop i).flatten) := by
  intro fuel
  induction fuel with
  | zero => intro i cur acc _ _ _ hpos; omega
  | succ f ih =>
    intro i cur acc hdec hi hle _
    have hserver : simServer chunks cur = pageAt chunks i := by
      match cur with
      | none => simp only [simServer]; rw [← hdec]
      | some s => simp only [simServer]; rw [← hdec]
    rw [fetchLoop, hserver]
    have hmap : ∀ l : List α, List.map Edge.node (List.map Edge.mk l) = l := by
      intro l
      induction l with
      | nil => rfl
      | cons a t iht => simp only [List.map_cons, iht]
    simp only [pageAt, hmap]
    by_cases hnext : i + 1 < chunks.length
    · have hlt : i < chunks.length := by omega
      simp only [hnext, decide_eq_true_eq, if_pos]
      rw [ih (i + 1) _ _ (by simp) (Or.inl hnext) (by omega) (by omega)]
      rw [List.getD_eq_getElem _ _ hlt, List.drop_eq_getElem_cons hlt, List.flatten_cons,
        List.append_assoc]
    · simp only [hnext, decide_eq_true_eq, if_neg, if_false, not_false_iff]
      rcases hi with hi | ⟨h0, rfl⟩
      · have hdrop : chunks.drop i = [chunks[i]] := by
          rw [List.drop_eq_getElem_cons hi, List.drop_eq_nil_of_le (by omega)]
        rw [List.getD_eq_getElem _ _ hi, hdrop]
        simp
      · have : chunks = [] := List.length_eq_zero.mp h0
        subst this
        simp

/-! ## Claim C1 -/

/-- Claim C1: for every simulated multi-page collection (any page size),
the paginated fetcher returns the concatenation of the items of all pages
in traversal order, with no item duplicated or dropped: starting from a
null cursor it accumulates each response's items, threads the response's
end cursor verbatim into the next request while the response reports more
pages, and terminates exactly when the response reports no further
pages. -/
theorem claim_C1 {α : Type} (xs : List α) (size fuel : Nat)
    (hfuel : (chunksOf size xs).length + 1 ≤ fuel) :
    fetchAllPages (simServer (chunksOf size xs)) fuel = some xs := by
  have hside : 0 < (chunksOf size xs).length ∨ ((chunksOf size xs).length = 0 ∧ 0 = 0) := by
    rcases Nat.eq_zero_or_pos (chunksOf size xs).length with h | h
    · exact Or.inr ⟨h, rfl⟩
    · exact Or.inl h
  have h := fetchLoop_sim (chunksOf size xs) fuel 0 none [] rfl hside (by omega) (by omega)
  rw [fetchAllPages, h, List.drop_zero, chunksOf_flatten]
  simp

theorem claim_C1_witness :
    ((chunksOf 2 [1, 2, 3, 4, 5]).length + 1 ≤ 4) ∧
    fetchAllPages (simServer (chunksOf 2 [1, 2, 3, 4, 5])) 4 = some [1, 2, 3, 4, 5] :=
  ⟨by simp [chunksOf], claim_C1 [1, 2, 3, 4, 5] 2 4 (by simp [chunksOf])⟩

/-! ## The rate/cost throttle (`export-products.js`, `shopify`)

The throttle inspects `json.extensions?.cost`: if
`cost?.throttleStatus?.currentlyAvailable < 100` it sleeps for
`Math.ceil(cost.requestedQueryCost / cost.throttleStatus.restoreRate) * 1000`
milliseconds (an absent cost or throttle status compares as `undefined < 100`,
which is false, so no wait). -/

structure ThrottleStatus where
  currentlyAvailable : Nat
  restoreRate : Nat

structure QueryCost where
  requestedQueryCost : Nat
  throttleStatus : Option ThrottleStatus

/-- `Math.ceil(a / b)` on natural inputs (the API reports integral costs
and restore rates). -/
def ceilDiv (a b : Nat) : Nat := (a + b - 1) / b

/-- The wait the `shopify` helper inserts after a response, if any. -/
def throttleWaitMs (cost : Option QueryCost) : Option Nat :=
  match cost with
  | none => none
  | some c =>
    match c.throttleStatus with
    | none => none
    | some ts =>
      if ts.currentlyAvailable < 100 then
        some (ceilDiv c.requestedQueryCost ts.restoreRate * 1000)
      else none

/-- `ceilDiv` really is the ceiling of the division: its result is the
least `m` with `q ≤ m * r`. -/
theorem ceilDiv_spec (q r : Nat) (h : 0 < r) :
    q ≤ ceilDiv q r * r ∧ (0 < q → (ceilDiv q r - 1) * r < q) := by
  have h1 : q + r - 1 < ((q + r - 1) / r + 1) * r := by
    have hdm := Nat.div_add_mod (q + r - 1) r
    have hm : (q + r - 1) % r < r := Nat.mod_lt _ h
    have hmul : ((q + r - 1) / r + 1) * r = r * ((q + r - 1) / r) + r := by ring
    omega
  have h2 : (q + r - 1) / r * r ≤ q + r - 1 := Nat.div_mul_le_self _ _
  rw [Nat.succ_mul] at h1
  rw [ceilDiv, Nat.sub_mul, Nat.one_mul]
  generalize (q + r - 1) / r * r = X at h1 h2 ⊢
  omega

/-! ## HTTP / GraphQL response handling (`export-products.js`, `shopify`) -/

structure HttpResponse where
  ok : Bool
  status : Nat
  bodyText : String

/-- The parsed body of a GraphQL response together with its extensions:
`errors` (absent when the field is missing), `data`, and
`extensions?.cost`. -/
structure GraphQLEnvelope where
  errors : Option Json
  data : Json
  cost : Option QueryCost

/-- JavaScript truthiness of a JSON value. -/
def jsTruthy : Json → Bool
  | .null => false
  | .bool b => b
  | .num n => !(n == 0)
  | .str s => !(s == "")
  | .arr _ => true
  | .obj _ => true

/-- The `shopify(query, variables)` helper after the fetch resolves: a
non-2xx response throws `Shopify API <status>: <body>`; a truthy `errors`
field throws `GraphQL: <errors>`; otherwise the data is returned together
with the throttle wait (if one is due) slept before the next request. -/
def shopifyStep (resp : HttpResponse) (env : GraphQLEnvelope) :
    Except String (Json × Option Nat) :=
  if !resp.ok then
    .error ("Shopify API " ++ toString resp.status ++ ": " ++ resp.bodyText)
  else
    match env.errors with
    | some e =>
      if jsTruthy e then .error ("GraphQL: " ++ jsonStringify e)
      else .ok (env.data, throttleWaitMs env.cost)
    | none => .ok (env.data, throttleWaitMs env.cost)

/-! ## Claim C5 -/

/-- Claim C5: after any API response whose throttle status reports
currently-available capacity below the fixed floor of 100, the fetcher
waits `ceil(requestedQueryCost / restoreRate) * 1000` milliseconds before
the next request (`ceilDiv` being the exact ceiling by `ceilDiv_spec`); in
particular for `currentlyAvailable 50`, `requestedQueryCost 10`,
`restoreRate 5` the computed wait is 2000 ms, hence at least 2000 ms; and
when available capacity is at or above the floor no wait is inserted. -/
theorem claim_C5 :
    (∀ (q : Nat) (ts : ThrottleStatus), ts.currentlyAvailable < 100 →
      throttleWaitMs (some ⟨q, some ts⟩) = some (ceilDiv q ts.restoreRate * 1000)) ∧
    (∀ (q : Nat) (ts : ThrottleStatus), 100 ≤ ts.currentlyAvailable →
      throttleWaitMs (some ⟨q, some ts⟩) = none) ∧
    (∀ (resp : HttpResponse) (env : GraphQLEnvelope),
      resp.ok = true → env.errors = none →
      shopifyStep resp env = .ok (env.data, throttleWaitMs env.cost)) ∧
    (throttleWaitMs (some ⟨10, some ⟨50, 5⟩⟩) = some 2000 ∧ 2000 ≤ 2000) := by
  refine ⟨?_, ?_, ?_, by decide, le_rfl⟩
  · intro q ts h
    simp [throttleWaitMs, h]
  · intro q ts h
    simp [throttleWaitMs, Nat.not_lt.mpr h]
  · intro resp env hok herr
    simp [shopifyStep, hok, herr]

theorem claim_C5_witness :
    ((50 : Nat) < 100 ∧ throttleWaitMs (some ⟨10, some ⟨50, 5⟩⟩) = some (ceilDiv 10 5 * 1000)) ∧
    ((100 : Nat) ≤ 150 ∧ throttleWaitMs (some ⟨10, some ⟨150, 5⟩⟩) = none) :=
  ⟨⟨by decide, claim_C5.1 10 ⟨50, 5⟩ (by decide)⟩,
   ⟨by decide, claim_C5.2.1 10 ⟨150, 5⟩ (by decide)⟩⟩

/-! ## The generation pipeline (`generate-descriptions.js`)

Records arrive as JSONL on stdin.  A parsed record is viewed through the
fields the script touches; `id`, `handle` and `title` are carried verbatim
(as JSON values) into the output line.  Fields of unexpected runtime type
(for example a numeric `description`, on which the script's `.trim()` call
would throw) are outside the model and read as absent. -/

/-- Property read on a parsed JSON object (`o[k]`): the last entry wins,
as in `JSON.parse` of duplicate keys. -/
def objGet : List (String × Json) → String → Option Json
  | [], _ => none
  | (k2, v) :: fs, k =>
    match objGet fs k with
    | some w => some w
    | none => if k2 == k then some v else none

def jsonGet (j : Json) (k : String) : Option Json :=
  match j with
  | .obj fs => objGet fs k
  | _ => none

def asStr : Option Json → Option String
  | some (.str s) => some s
  | _ => none

/-- One metafield node: `{namespace, key, value}`. -/
structure Metafield where
  ns : String
  key : String
  value : String

structure Product where
  id : Json
  handle : Json
  title : Json
  description : Option String
  productType : Option String
  vendor : Option String
  tags : List String
  metafields : List Metafield

def toMetafield (j : Json) : Metafield :=
  { ns := (asStr (jsonGet j "namespace")).getD ""
    key := (asStr (jsonGet j "key")).getD ""
    value := (asStr (jsonGet j "value")).getD "" }

/-- View a parsed line as the record fields the script reads
(`product.metafields || []` and `product.tags || []` default to empty). -/
def toProduct (j : Json) : Product :=
  { id := (jsonGet j "id").getD .null
    handle := (jsonGet j "handle").getD .null
    title := (jsonGet j "title").getD .null
    description := asStr (jsonGet j "description")
    productType := asStr (jsonGet j "productType")
    vendor := asStr (jsonGet j "vendor")
    tags :=
      match jsonGet j "tags" with
      | some (.arr ts) => ts.filterMap (fun t => asStr (some t))
      | _ => []
    metafields :=
      match jsonGet j "metafields" with
      | some (.arr ms) => ms.map toMetafield
      | _ => [] }

/-! ### The metafield map `mf`

Both `extractAttributes` and `needsGeneration` build
`for (const m of product.metafields) mf[m.key] = m.value` — an insertion
keyed by `key` alone (the namespace is ignored), where a later assignment
to the same key overwrites the earlier value in place. -/

def mfInsert : List (String × String) → String → String → List (String × String)
  | [], k, v => [(k, v)]
  | (k2, w) :: rest, k, v =>
    if k2 == k then (k2, v) :: rest else (k2, w) :: mfInsert rest k v

def mfBuild (ms : List Metafield) : List (String × String) :=
  ms.foldl (fun acc m => mfInsert acc m.key m.value) []

def mfGet : List (String × String) → String → Option String
  | [], _ => none
  | (k2, v) :: rest, k => if k2 == k then some v else mfGet rest k

/-- JavaScript `String.prototype.trim` (on its ASCII whitespace subset). -/
def isJsWs (c : Char) : Bool :=
  c == '\x09' || c == '\x0a' || c == '\x0b' || c == '\x0c' || c == '\x0d' || c == ' '

def jsTrim (s : String) : String :=
  String.mk (((s.data.dropWhile isJsWs).reverse.dropWhile isJsWs).reverse)

/-- `v && v.trim().length > 0` for an optional string field. -/
def truthyNonBlank : Option String → Bool
  | none => false
  | some s => !(s == "") && decide (0 < (jsTrim s).data.length)

/-- `needsGeneration(product)`: with `--overwrite` everything is selected;
otherwise a record is selected unless both the `description` field and the
`longDescription` metafield are non-empty after trimming. -/
def needsGeneration (overwrite : Bool) (p : Product) : Bool :=
  if overwrite then true
  else
    let mf := mfBuild p.metafields
    let hasDescription := truthyNonBlank p.description
    let hasLong := truthyNonBlank (mfGet mf "longDescription")
    !hasDescription || !hasLong

/-- `x || null`. -/
def orNull : Option String → Option String
  | some s => if s == "" then none else some s
  | none => none

structure Attributes where
  id : Json
  title : Json
  productType : Option String
  vendor : Option String
  tags : List String
  existingDescription : Option String
  existingLongDescription : Option String
  metafields : List (String × String)

/-- `extractAttributes(product)`: the flat attribute object handed to the
prompt builder. -/
def extractAttributes (p : Product) : Attributes :=
  { id := p.id
    title := p.title
    productType := orNull p.productType
    vendor := orNull p.vendor
    tags := p.tags
    existingDescription := orNull p.description
    existingLongDescription := orNull (mfGet (mfBuild p.metafields) "longDescription")
    metafields := mfBuild p.metafields }

/-- The metafield lines of one product's prompt block: one `key: value`
line per entry, skipping the `longDescription` key and falsy values. -/
def promptEntryLines : List (String × String) → List String
  | [] => []
  | (k, v) :: rest =>
    if k == "longDescription" then promptEntryLines rest
    else if v == "" then promptEntryLines rest
    else (k ++ ": " ++ v) :: promptEntryLines rest

/-- String interpolation of a JSON value into a template literal (exact
for the string/number/null values that occur in titles). -/
def jsDisplay : Json → String
  | .str s => s
  | v => jsonStringify v

/-- One product's prompt block, at position `i` of its batch. -/
def promptLinesAt (i : Nat) (a : Attributes) : List String :=
  ("Product " ++ toString (i + 1) ++ ": " ++ jsDisplay a.title)
  :: ((match a.productType with | some t => ["Type: " ++ t] | none => [])
    ++ (match a.vendor with | some vd => ["Vendor: " ++ vd] | none => [])
    ++ (if a.tags.isEmpty then [] else ["Tags: " ++ String.intercalate ", " a.tags])
    ++ promptEntryLines a.metafields)

/-! ## Claim C3 -/

/-- Claim C3: the eligibility filter selects a record iff the override
flag is set or at least one of the two required text fields (the
`description` field and the `longDescription` metafield, a missing field
counting as empty) is empty after trimming.  The decision is a pure
function of the record and the flag — by construction it never mutates the
record — so with the flag it always selects, and without the flag it is
the stated predicate, identical on every re-application. -/
theorem claim_C3 :
    (∀ p : Product, needsGeneration true p = true) ∧
    (∀ p : Product,
      needsGeneration false p = true ↔
        (jsTrim (p.description.getD "")).data.length = 0 ∨
        (jsTrim ((mfGet (mfBuild p.metafields) "longDescription").getD "")).data.length = 0) := by
  have key : ∀ o : Option String,
      truthyNonBlank o = false ↔ (jsTrim (o.getD "")).data.length = 0 := by
    intro o
    match o with
    | none => simp [truthyNonBlank, jsTrim]
    | some s =>
      simp only [truthyNonBlank, Option.getD_some, Bool.and_eq_false_iff]
      constructor
      · rintro (h | h)
        · simp only [Bool.not_eq_false', beq_iff_eq] at h
          subst h
          simp [jsTrim]
        · simpa using h
      · intro h
        right
        simpa using h
  refine ⟨fun p => rfl, fun p => ?_⟩
  have hng : needsGeneration false p
      = (!truthyNonBlank p.description
        || !truthyNonBlank (mfGet (mfBuild p.metafields) "longDescription")) := rfl
  rw [hng, Bool.or_eq_true, Bool.not_eq_true', Bool.not_eq_true', key, key]

/-! ## Claim C10

The metafield map is keyed by `key` alone: the namespace never enters
`mfInsert`, so a later metafield with the same key in any namespace
overwrites the earlier value.  `lastValueOfKey` is the reference reading
of that behaviour ("last entry with this key wins, namespaces ignored"). -/

def lastValueOfKey : List Metafield → String → Option String
  | [], _ => none
  | m :: ms, k =>
    match lastValueOfKey ms k with
    | some v => some v
    | none => if m.key == k then some m.value else none

/-- First-defined choice on options (the shape of `lastValueOfKey`'s
recursion). -/
def firstSome (a b : Option String) : Option String :=
  match a with
  | some v => some v
  | none => b

theorem firstSome_assoc (a b c : Option String) :
    firstSome (firstSome a b) c = firstSome a (firstSome b c) := by
  cases a <;> rfl

theorem firstSome_none_right (a : Option String) : firstSome a none = a := by
  cases a <;> rfl

theorem lastValueOfKey_cons (m : Metafield) (ms : List Metafield) (k : String) :
    lastValueOfKey (m :: ms) k
      = firstSome (lastValueOfKey ms k) (if m.key == k then some m.value else none) := rfl

theorem lastValueOfKey_append_single (ms : List Metafield) (m : Metafield) (k : String) :
    lastValueOfKey (ms ++ [m]) k
      = firstSome (if m.key == k then some m.value else none) (lastValueOfKey ms k) := by
  induction ms with
  | nil =>
    rw [List.nil_append, lastValueOfKey_cons]
    show firstSome none (if (m.key == k) = true then some m.value else none)
      = firstSome (if (m.key == k) = true then some m.value else none) none
    rw [firstSome_none_right]
    rfl
  | cons m2 ms ih =>
    rw [List.cons_append, lastValueOfKey_cons, ih, firstSome_assoc, ← lastValueOfKey_cons]

theorem mfGet_mfInsert (acc : List (String × String)) (k v k2 : String) :
    mfGet (mfInsert acc k v) k2 = if k2 == k then some v else mfGet acc k2 := by
  induction acc with
  | nil =>
    by_cases h : k2 = k
    · subst h
      simp [mfInsert, mfGet]
    · simp [mfInsert, mfGet, h, Ne.symm h]
  | cons kv rest ih =>
    obtain ⟨a, w⟩ := kv
    by_cases hak : a = k
    · subst hak
      by_cases h : k2 = a
      · subst h
        simp [mfInsert, mfGet]
      · simp [mfInsert, mfGet, h, Ne.symm h]
    · by_cases h2 : a = k2
      · subst h2
        simp [mfInsert, mfGet, hak, Ne.symm hak]
      · by_cases h : k2 = k
        · subst h
          simp [mfInsert, mfGet, hak, h2, ih]
        · simp [mfInsert, mfGet, hak, h2, h, ih]

theorem mfGet_mfBuild (ms : List Metafield) (k : String) :
    mfGet (mfBuild ms) k = lastValueOfKey ms k := by
  induction ms using List.reverseRecOn with
  | nil => rfl
  | append_singleton ms m ih =>
    rw [mfBuild, List.foldl_append, List.foldl_cons, List.foldl_nil,
      show List.foldl (fun acc m => mfInsert acc m.key m.value) [] ms = mfBuild ms from rfl,
      mfGet_mfInsert, lastValueOfKey_append_single, ih]
    by_cases hk : (k == m.key) = true
    · have hk2 : (m.key == k) = true := by
        simp only [beq_iff_eq] at hk ⊢
        exact hk.symm
      rw [if_pos hk, if_pos hk2]
      rfl
    · have hk2 : ¬(m.key == k) = true := by
        simp only [beq_iff_eq] at hk ⊢
        exact fun hh => hk hh.symm
      rw [if_neg hk, if_neg hk2]
      rfl

theorem promptEntryLines_spec (mf : List (String × String)) :
    promptEntryLines mf
      = (mf.filter (fun kv => !(kv.1 == "longDescription") && !(kv.2 == ""))).map
          (fun kv => kv.1 ++ ": " ++ kv.2) := by
  induction mf with
  | nil => rfl
  | cons kv rest ih =>
    obtain ⟨k, v⟩ := kv
    by_cases hk : k = "longDescription"
    · subst hk
      simp [promptEntryLines, List.filter, ih]
    · have hkb : (k == "longDescription") = false := by simp [hk]
      by_cases hv : v = ""
      · subst hv
        simp [promptEntryLines, List.filter, hkb, ih]
      · have hvb : (v == "") = false := by simp [hv]
        simp [promptEntryLines, List.filter, hkb, hvb, ih]

/-- Claim C10: both the eligibility filter and the prompt attribute
extraction look up metafields by key alone, ignoring the namespace — the
map they build gives, for each key, the value of the last metafield with
that key in the input list, whatever its namespace (`mfGet_mfBuild`, and
the append form showing the last entry always wins); the eligibility
decision and the extracted `existingLongDescription` are exactly functions
of that namespace-blind lookup; and the `longDescription` entry is always
excluded from the prompt's metafield lines, even when non-empty, while
other empty-valued entries are skipped. -/
theorem claim_C10 :
    (∀ (ms : List Metafield) (k : String), mfGet (mfBuild ms) k = lastValueOfKey ms k) ∧
    (∀ (ms : List Metafield) (m : Metafield), mfGet (mfBuild (ms ++ [m])) m.key = some m.value) ∧
    (∀ p : Product,
      (extractAttributes p).existingLongDescription
        = orNull (lastValueOfKey p.metafields "longDescription")) ∧
    (∀ p : Product,
      needsGeneration false p
        = (!truthyNonBlank p.description
          || !truthyNonBlank (lastValueOfKey p.metafields "longDescription"))) ∧
    (∀ mf : List (String × String),
      promptEntryLines mf
        = (mf.filter (fun kv => !(kv.1 == "longDescription") && !(kv.2 == ""))).map
            (fun kv => kv.1 ++ ": " ++ kv.2)) := by
  refine ⟨mfGet_mfBuild, ?_, ?_, ?_, promptEntryLines_spec⟩
  · intro ms m
    rw [mfGet_mfBuild, lastValueOfKey_append_single, if_pos (beq_self_eq_true m.key)]
    rfl
  · intro p
    rw [extractAttributes]
    simp only [mfGet_mfBuild]
  · intro p
    have hng : needsGeneration false p
        = (!truthyNonBlank p.description
          || !truthyNonBlank (mfGet (mfBuild p.metafields) "longDescription")) := rfl
    rw [hng, mfGet_mfBuild]

/-! ## The Generation Client (`generateBatch`, `outputSchema`, `processBatch`)

One generation call per batch.  The external service's final `result`
message is modelled by `GenResult`; `outputFormat: json_schema` with
`outputSchema(batch.length)` guarantees that a success result's
`structured_output.products` array is schema-valid.  Cost and token
counters are only logged and are outside the model. -/

structure DescPair where
  description : String
  longDescription : String

/-- The `result` message of one generation call: its success/failure
subtype, the reported errors, and the structured payload. -/
structure GenResult where
  subtype : String
  errors : List String
  products : List DescPair

/-- What the JSON schema `outputSchema(n)` enforces on the typed payload:
the `products` array has `minItems = maxItems = n` entries, each of which
is exactly a `{description, longDescription}` string pair (the pair shape
is the type of `DescPair`). -/
def outputSchemaHolds (n : Nat) (ps : List DescPair) : Prop := ps.length = n

/-- `generateBatch`: a non-success result subtype throws
`AI error: <subtype>: <errors joined by ", ">`; a success result yields
its structured products. -/
def generateBatch (res : GenResult) : Except String (List DescPair) :=
  if res.subtype ≠ "success" then
    .error ("AI error: " ++ res.subtype ++ ": " ++ String.intercalate ", " res.errors)
  else .ok res.products

/-- The output line printed for one record: the record's `id`, `handle`
and `title` with its generated pair. -/
def mkOutLine (p : Product) (d : DescPair) : Json :=
  .obj [("id", p.id), ("handle", p.handle), ("title", p.title),
    ("description", .str d.description), ("longDescription", .str d.longDescription)]

/-- The emission loop of `processBatch`: `descriptions[i]` is paired with
`products[i]` by position.  When the descriptions array is shorter than
the batch, reading `desc.description` off `undefined` throws a TypeError
(the run fails; lines printed before the throw are not modelled, as the
failing run discards them). -/
def emitLines : List Product → List DescPair → Except String (List Json)
  | [], _ => .ok []
  | p :: ps, d :: ds => (emitLines ps ds).map (fun ls => mkOutLine p d :: ls)
  | _ :: _, [] => .error "TypeError: Cannot read properties of undefined"

/-- `processBatch`: run the generation call, then emit one line per input
record. -/
def processBatch (batch : List Product) (res : GenResult) : Except String (List Json) :=
  match generateBatch res with
  | .error e => .error e
  | .ok ds => emitLines batch ds

theorem emitLines_of_length_eq (ps : List Product) (ds : List DescPair)
    (h : ds.length = ps.length) :
    emitLines ps ds = .ok (List.zipWith mkOutLine ps ds) := by
  induction ps generalizing ds with
  | nil =>
    match ds with
    | [] => rfl
  | cons p ps ih =>
    match ds with
    | d :: ds =>
      simp only [List.length_cons, Nat.succ_inj] at h
      rw [emitLines, ih ds h]
      rfl

theorem emitLines_of_short (ps : List Product) (ds : List DescPair)
    (h : ds.length < ps.length) :
    emitLines ps ds = .error "TypeError: Cannot read properties of undefined" := by
  induction ps generalizing ds with
  | nil => simp at h
  | cons p ps ih =>
    match ds with
    | [] => rfl
    | d :: ds =>
      simp only [List.length_cons] at h
      rw [emitLines, ih ds (by omega)]
      rfl

/-! ## Claim C2 -/

/-- Claim C2: for every batch of N input records whose generation result
respects the call's enforced schema, a success result produces exactly N
output lines, and line i carries record i's id, handle and title with the
i-th generated pair (the pairing is positional, via `zipWith`); a
non-success result is a reported failure of the run (the thrown message),
and an output shorter than the batch is likewise a thrown TypeError, never
silently tolerated. -/
theorem claim_C2 (batch : List Product) (res : GenResult)
    (hschema : res.subtype = "success" → outputSchemaHolds batch.length res.products) :
    (res.subtype = "success" →
      processBatch batch res = .ok (List.zipWith mkOutLine batch res.products) ∧
      (List.zipWith mkOutLine batch res.products).length = batch.length ∧
      (∀ (i : Nat) (p : Product) (d : DescPair),
        batch[i]? = some p → res.products[i]? = some d →
        (List.zipWith mkOutLine batch res.products)[i]? = some (mkOutLine p d))) ∧
    (res.subtype ≠ "success" →
      processBatch batch res
        = .error ("AI error: " ++ res.subtype ++ ": " ++ String.intercalate ", " res.errors)) ∧
    (∀ ds : List DescPair, ds.length < batch.length →
      emitLines batch ds = .error "TypeError: Cannot read properties of undefined") := by
  refine ⟨?_, ?_, emitLines_of_short batch⟩
  · intro hs
    have hlen : res.products.length = batch.length := hschema hs
    refine ⟨?_, ?_, ?_⟩
    · rw [processBatch, generateBatch, if_neg (by simp [hs])]
      exact emitLines_of_length_eq _ _ hlen
    · rw [List.length_zipWith]
      omega
    · intro i p d hp hd
      have hip : i < batch.length := (List.getElem?_eq_some_iff.mp hp).1
      have hid : i < res.products.length := (List.getElem?_eq_some_iff.mp hd).1
      have hiz : i < (List.zipWith mkOutLine batch res.products).length := by
        rw [List.length_zipWith]
        omega
      rw [List.getElem?_eq_getElem hiz, List.getElem_zipWith]
      rw [List.getElem?_eq_getElem hip] at hp
      rw [List.getElem?_eq_getElem hid] at hd
      rw [Option.some_inj] at hp hd
      rw [hp, hd]
  · intro hs
    rw [processBatch, generateBatch, if_pos hs]

theorem claim_C2_witness :
    (let res : GenResult := ⟨"success", [], [⟨"a", "b"⟩]⟩
     let batch : List Product :=
       [⟨.num 1, .null, .str "t", none, none, none, [], []⟩]
     (res.subtype = "success" → outputSchemaHolds batch.length res.products) ∧
     processBatch batch res = .ok (List.zipWith mkOutLine batch res.products)) := by
  have h := claim_C2 [⟨.num 1, .null, .str "t", none, none, none, [], []⟩]
    ⟨"success", [], [⟨"a", "b"⟩]⟩ (fun _ => rfl)
  exact ⟨fun _ => rfl, (h.1 rfl).1⟩

/-! ## The stdin reader (`run`, `generate-descriptions.js`)

The source reads byte chunks, appends each decoded chunk to a carry-over
buffer, and repeatedly splits off the text before the first newline as one
line; whatever remains in the buffer when the stream ends is discarded
without being processed.  `splitLines` performs the complete split of one
buffer (the lines before each newline, and the remainder after the last
one); `feedChunks` threads the carry-over buffer through the chunk
sequence exactly as the loop does. -/

def splitLines : List Char → List (List Char) × List Char
  | [] => ([], [])
  | c :: cs =>
    let (ls, r) := splitLines cs
    if c = '\n' then ([] :: ls, r)
    else
      match ls with
      | l :: ls2 => ((c :: l) :: ls2, r)
      | [] => ([], c :: r)

def feedChunks : List String → List Char → List (List Char) × List Char
  | [], buf => ([], buf)
  | chunk :: rest, buf =>
    let (ls, buf2) := splitLines (buf ++ chunk.data)
    let (ls2, buf3) := feedChunks rest buf2
    (ls ++ ls2, buf3)

/-- All complete lines the reader processes, over the whole stream; the
final carry-over buffer is dropped, as in the source. -/
def extractLines (chunks : List String) : List String :=
  (feedChunks chunks []).1.map String.mk

theorem splitLines_no_newline (cs : List Char) (h : '\n' ∉ cs) :
    splitLines cs = ([], cs) := by
  induction cs with
  | nil => rfl
  | cons c cs ih =>
    have hc : c ≠ '\n' := fun hh => h (by simp [hh])
    have hcs : '\n' ∉ cs := fun hh => h (by simp [hh])
    rw [splitLines, ih hcs]
    simp [hc]

theorem splitLines_rem_no_newline (cs : List Char) : '\n' ∉ (splitLines cs).2 := by
  induction cs with
  | nil => simp [splitLines]
  | cons c cs ih =>
    rw [splitLines]
    by_cases hc : c = '\n'
    · simpa [hc] using ih
    · simp only [hc, if_false]
      match hls : (splitLines cs).1 with
      | l :: ls2 => simpa [hls] using ih
      | [] =>
        simp only [hls]
        simp only [List.mem_cons, not_or]
        exact ⟨fun hh => hc hh.symm, ih⟩

theorem splitLines_append (xs ys : List Char) :
    splitLines (xs ++ ys)
      = ((splitLines xs).1 ++ (splitLines ((splitLines xs).2 ++ ys)).1,
         (splitLines ((splitLines xs).2 ++ ys)).2) := by
  induction xs with
  | nil => simp [splitLines]
  | cons c xs ih =>
    rw [List.cons_append, splitLines, ih, splitLines]
    by_cases hc : c = '\n'
    · simp [hc]
    · simp only [hc, if_false]
      match hls : (splitLines xs).1 with
      | l :: ls2 => simp
      | [] =>
        simp only [List.nil_append]
        match hl2 : (splitLines ((splitLines xs).2 ++ ys)).1 with
        | l2 :: ls3 =>
          rw [List.cons_append, splitLines]
          simp [hc, hl2]
        | [] =>
          rw [List.cons_append, splitLines]
          simp [hc, hl2]

theorem feedChunks_eq_splitLines (chunks : List String) :
    ∀ buf : List Char, '\n' ∉ buf →
    feedChunks chunks buf = splitLines (buf ++ (chunks.map String.data).flatten) := by
  induction chunks with
  | nil =>
    intro buf h
    rw [feedChunks, List.map_nil, List.flatten_nil, List.append_nil, splitLines_no_newline _ h]
  | cons chunk rest ih =>
    intro buf h
    rw [feedChunks, List.map_cons, List.flatten_cons]
    show ((splitLines (buf ++ chunk.data)).1
          ++ (feedChunks rest (splitLines (buf ++ chunk.data)).2).1,
          (feedChunks rest (splitLines (buf ++ chunk.data)).2).2)
        = splitLines (buf ++ (chunk.data ++ (List.map String.data rest).flatten))
    rw [ih _ (splitLines_rem_no_newline _), ← List.append_assoc,
      splitLines_append (buf ++ chunk.data)]

/-! ## The batcher and the run loop -/

def BATCH_SIZE : Nat := 20

/-- The run loop's accumulated state: the batch being filled, the batches
already dispatched (in dispatch order), and the two counters. -/
structure GenState where
  batch : List Product
  batches : List (List Product)
  skipped : Nat
  total : Nat

def initGenState : GenState := ⟨[], [], 0, 0⟩

/-- Processing of one extracted line: trim it, skip it when blank,
otherwise `JSON.parse` it (a malformed line throws), apply the eligibility
filter (a skip-worthy record only bumps the skip counter and is never
emitted), push an eligible record onto the batch, and dispatch the batch
the moment it reaches `BATCH_SIZE`. -/
def procLine (ov : Bool) (st : GenState) (line : String) : Except String GenState :=
  let l := jsTrim line
  if l == "" then .ok st
  else
    match jsonParse l with
    | none => .error "SyntaxError: unexpected JSON input"
    | some j =>
      let p := toProduct j
      if !needsGeneration ov p then .ok { st with skipped := st.skipped + 1 }
      else
        let b := st.batch ++ [p]
        if BATCH_SIZE ≤ b.length then
          .ok ⟨[], st.batches ++ [b], st.skipped, st.total + 1⟩
        else
          .ok { st with batch := b, total := st.total + 1 }

/-- Fold the line processor over the extracted lines, halting at the
first thrown error (which propagates out of the read loop). -/
def readLines (ov : Bool) : List String → GenState → GenState × Option String
  | [], st => (st, none)
  | l :: ls, st =>
    match procLine ov st l with
    | .ok st2 => readLines ov ls st2
    | .error e => (st, some e)

/-- Everything observable about one run of the generation pipeline. -/
structure RunReport where
  batches : List (List Product)
  batchResults : List (Except String (List Json))
  completed : Nat
  skipped : Nat
  total : Nat
  readErr : Option String

/-- One run of `run()`: extract the lines (the trailing buffer is
discarded), fold them through the filter/batcher (dispatching batches in
order), flush the final short batch only when reading finished without a
thrown error, and hand batch `i` to the `i`-th generation call
(`oracle i`).  The in-flight batches all run to completion, so every
successful batch contributes its lines and its length to the completed
counter regardless of a sibling's failure. -/
def runPipeline (ov : Bool) (oracle : Nat → GenResult) (chunks : List String) : RunReport :=
  let lines := extractLines chunks
  let (st, rerr) := readLines ov lines initGenState
  let batches :=
    match rerr with
    | none => st.batches ++ (if st.batch.isEmpty then [] else [st.batch])
    | some _ => st.batches
  let results := batches.mapIdx (fun i b => processBatch b (oracle i))
  { batches := batches
    batchResults := results
    completed := (batches.zip results).foldl
      (fun a br => match br.2 with | .ok _ => a + br.1.length | .error _ => a) 0
    skipped := st.skipped
    total := st.total
    readErr := rerr }

/-- The first rejection the final join observes (the read error wins,
since it prevents the join from being reached with a fresh failure). -/
def firstErrorIn : List (Except String (List Json)) → Option String
  | [] => none
  | .error e :: _ => some e
  | .ok _ :: rest => firstErrorIn rest

def finalError (r : RunReport) : Option String :=
  match r.readErr with
  | some e => some e
  | none => firstErrorIn r.batchResults

/-- `run().catch(err => { error(err.message); process.exit(1) })`: a
failed run prints the message once to the error stream with the failure
marker and exits with code 1; a successful run exits 0. -/
def catchHandler : Option String → List String × Nat
  | some msg => (["\x1b[31m✘\x1b[0m " ++ msg], 1)
  | none => ([], 0)

/-! ### The read loop, characterized -/

/-- Reference reading of the stream: the records parsed off the non-blank
trimmed lines, in order (failing at the first malformed line). -/
def parsedOf : List String → Except String (List Product)
  | [] => .ok []
  | l :: ls =>
    let t := jsTrim l
    if t == "" then parsedOf ls
    else
      match jsonParse t with
      | none => .error "SyntaxError: unexpected JSON input"
      | some j => (parsedOf ls).map (fun ps => toProduct j :: ps)

/-- The per-record step of the loop, once a record is parsed. -/
def coreStep (ov : Bool) (st : GenState) (p : Product) : GenState :=
  if !needsGeneration ov p then { st with skipped := st.skipped + 1 }
  else
    let b := st.batch ++ [p]
    if BATCH_SIZE ≤ b.length then
      ⟨[], st.batches ++ [b], st.skipped, st.total + 1⟩
    else
      { st with batch := b, total := st.total + 1 }

theorem readLines_of_parsedOf (ov : Bool) (lines : List String) :
    ∀ (ps : List Product) (st : GenState), parsedOf lines = .ok ps →
    readLines ov lines st = (ps.foldl (coreStep ov) st, none) := by
  induction lines with
  | nil =>
    intro ps st h
    rw [parsedOf] at h
    cases h
    rfl
  | cons l ls ih =>
    intro ps st h
    rw [parsedOf] at h
    by_cases hb : (jsTrim l == "") = true
    · rw [if_pos hb] at h
      have hpl : procLine ov st l = .ok st := by
        rw [procLine]
        simp [hb]
      rw [readLines, hpl]
      exact ih ps st h
    · rw [if_neg hb] at h
      simp only [Bool.not_eq_true] at hb
      match hj : jsonParse (jsTrim l) with
      | none => rw [hj] at h; exact absurd h (by simp)
      | some j =>
        rw [hj] at h
        match hps : parsedOf ls with
        | .error e => rw [hps] at h; exact absurd h (by simp [Except.map])
        | .ok ps2 =>
          rw [hps] at h
          simp only [Except.map, Except.ok.injEq] at h
          subst h
          have hpl : procLine ov st l = .ok (coreStep ov st (toProduct j)) := by
            rw [procLine]
            simp only [hb, Bool.false_eq_true, if_false, hj]
            rw [coreStep]
            by_cases he : (!needsGeneration ov (toProduct j)) = true
            · simp [he]
            · simp only [Bool.not_eq_true] at he
              simp only [he, Bool.false_eq_true, if_false]
              split <;> rfl
          rw [readLines, hpl]
          show readLines ov ls (coreStep ov st (toProduct j))
            = (List.foldl (coreStep ov) st (toProduct j :: ps2), none)
          rw [ih ps2 _ hps, List.foldl_cons]

/-- The batching automaton on the eligible stream alone. -/
def batchStep (acc : List (List Product) × List Product) (p : Product) :
    List (List Product) × List Product :=
  let b := acc.2 ++ [p]
  if BATCH_SIZE ≤ b.length then (acc.1 ++ [b], []) else (acc.1, b)

theorem coreFold_spec (ov : Bool) (ps : List Product) :
    ∀ st : GenState,
    ps.foldl (coreStep ov) st =
      ⟨((ps.filter (needsGeneration ov)).foldl batchStep (st.batches, st.batch)).2,
       ((ps.filter (needsGeneration ov)).foldl batchStep (st.batches, st.batch)).1,
       st.skipped + ps.countP (fun p => !needsGeneration ov p),
       st.total + ps.countP (needsGeneration ov)⟩ := by
  induction ps with
  | nil =>
    intro st
    cases st
    simp [List.countP, List.countP.go]
  | cons p ps ih =>
    intro st
    rw [List.foldl_cons, ih]
    by_cases he : needsGeneration ov p = true
    · rw [List.filter_cons_of_pos he, List.foldl_cons]
      rw [coreStep]
      simp only [he, Bool.not_true, Bool.false_eq_true, if_false]
      rw [List.countP_cons_of_pos _ _ he,
        List.countP_cons_of_neg _ _ (by simp [he]), batchStep]
      by_cases hsz : BATCH_SIZE ≤ (st.batch ++ [p]).length
      · simp only [hsz, if_true]
        simp only [GenState.mk.injEq]
        refine ⟨?_, ?_, ?_, ?_⟩ <;> first | trivial | omega
      · simp only [hsz, if_false]
        simp only [GenState.mk.injEq]
        refine ⟨?_, ?_, ?_, ?_⟩ <;> first | trivial | omega
    · simp only [Bool.not_eq_true] at he
      rw [List.filter_cons_of_neg (by simp [he]), coreStep]
      simp only [he, Bool.not_false, if_true]
      rw [List.countP_cons_of_pos (fun q => !needsGeneration ov q) _ (by simp [he]),
        List.countP_cons_of_neg (needsGeneration ov) _ (by simp [he])]
      simp only [GenState.mk.injEq]
      refine ⟨?_, ?_, ?_, ?_⟩ <;> first | trivial | omega

/-! ### Dispatched batches are exactly the 20-chunks of the eligible stream -/

theorem chunksOf_singleton_of_short (size : Nat) (l : List α) (hne : l ≠ [])
    (hle : l.length ≤ size) : chunksOf size l = [l] := by
  match l with
  | x :: xs =>
    rw [chunksOf, List.take_of_length_le (by simp at hle ⊢; omega),
      List.drop_eq_nil_of_le (by simp at hle ⊢; omega), chunksOf]

theorem chunksOf_append_of_length (size : Nat) (l rest : List α)
    (hlen : l.length = size) (hpos : 0 < size) :
    chunksOf size (l ++ rest) = l :: chunksOf size rest := by
  match l with
  | [] => simp at hlen; omega
  | x :: xs =>
    rw [List.cons_append, chunksOf]
    have hxs : xs.length = size - 1 := by simp at hlen; omega
    rw [show size - 1 = xs.length from hxs.symm, List.take_left, List.drop_left]

theorem countP_not_add (p : α → Bool) (l : List α) :
    l.countP (fun a => !p a) + l.countP p = l.length := by
  induction l with
  | nil => simp
  | cons a l ih =>
    by_cases h : p a = true
    · rw [List.countP_cons_of_pos p _ h, List.countP_cons_of_neg (fun a => !p a) _ (by simp [h])]
      simp only [List.length_cons]
      omega
    · simp only [Bool.not_eq_true] at h
      rw [List.countP_cons_of_neg p _ (by simp [h]),
        List.countP_cons_of_pos (fun a => !p a) _ (by simp [h])]
      simp only [List.length_cons]
      omega

theorem batchStep_fold (e : List Product) :
    ∀ (B : List (List Product)) (b : List Product), b.length < BATCH_SIZE →
    (e.foldl batchStep (B, b)).1
      ++ (if (e.foldl batchStep (B, b)).2.isEmpty then []
          else [(e.foldl batchStep (B, b)).2])
      = B ++ chunksOf BATCH_SIZE (b ++ e) := by
  induction e with
  | nil =>
    intro B b hb
    simp only [List.foldl_nil, List.append_nil]
    match b with
    | [] => simp [chunksOf]
    | x :: xs =>
      rw [chunksOf_singleton_of_short _ _ (by simp) (le_of_lt hb)]
      simp [List.isEmpty]
  | cons p e ih =>
    intro B b hb
    rw [List.foldl_cons, batchStep]
    by_cases hsz : BATCH_SIZE ≤ (b ++ [p]).length
    · have hlen : (b ++ [p]).length = BATCH_SIZE := by
        simp only [List.length_append, List.length_singleton] at hsz ⊢
        omega
      rw [if_pos hsz, ih (B ++ [b ++ [p]]) [] (by simp [BATCH_SIZE]),
        show b ++ p :: e = (b ++ [p]) ++ e by simp,
        chunksOf_append_of_length _ _ _ hlen (by simp [BATCH_SIZE])]
      simp
    · rw [if_neg hsz,
        ih B (b ++ [p]) (by simp [BATCH_SIZE] at hsz ⊢; omega),
        show b ++ p :: e = (b ++ [p]) ++ e by simp]

/-- A successful read phase pins the whole report: the dispatched batches
are the `BATCH_SIZE`-chunks of the eligible records in order, the skip and
total counters count the two filter outcomes, and batch `i` goes to
generation call `i`. -/
theorem runPipeline_of_parsedOf (ov : Bool) (oracle : Nat → GenResult) (chunks : List String)
    (ps : List Product) (hparse : parsedOf (extractLines chunks) = .ok ps) :
    runPipeline ov oracle chunks =
      { batches := chunksOf BATCH_SIZE (ps.filter (needsGeneration ov))
        batchResults := (chunksOf BATCH_SIZE (ps.filter (needsGeneration ov))).mapIdx
          (fun i b => processBatch b (oracle i))
        completed := ((chunksOf BATCH_SIZE (ps.filter (needsGeneration ov))).zip
            ((chunksOf BATCH_SIZE (ps.filter (needsGeneration ov))).mapIdx
              (fun i b => processBatch b (oracle i)))).foldl
          (fun a br => match br.2 with | .ok _ => a + br.1.length | .error _ => a) 0
        skipped := ps.countP (fun p => !needsGeneration ov p)
        total := ps.countP (needsGeneration ov)
        readErr := none } := by
  have hread := readLines_of_parsedOf ov (extractLines chunks) ps initGenState hparse
  have hfold := coreFold_spec ov ps initGenState
  have hbf := batchStep_fold (ps.filter (needsGeneration ov)) [] [] (by simp [BATCH_SIZE])
  rw [runPipeline, hread, hfold]
  simp only [initGenState, Nat.zero_add, List.nil_append]
  rw [hbf]
  simp

/-! ## Claim C4 -/

/-- Claim C4: the batcher groups the eligible records of the stream into
fixed-size batches of `BATCH_SIZE = 20` — the dispatched batches are
exactly the 20-chunks of the eligible records in input order, so a batch
is dispatched the moment it fills and one final short batch is flushed at
end of input — and the skip/total counters count the ineligible/eligible
records.  In particular, for a 25-record stream with 20 skip-worthy and 5
eligible records and no override flag, exactly one batch of 5 is
dispatched, the only output lines are that batch's 5 lines (none for any
skipped record), the final skipped count is 20 and the completed count is
5. -/
theorem claim_C4 (ov : Bool) (oracle : Nat → GenResult) (chunks : List String)
    (ps : List Product) (hparse : parsedOf (extractLines chunks) = .ok ps) :
    (runPipeline ov oracle chunks).batches
        = chunksOf BATCH_SIZE (ps.filter (needsGeneration ov)) ∧
    (runPipeline ov oracle chunks).skipped = ps.countP (fun p => !needsGeneration ov p) ∧
    (runPipeline ov oracle chunks).total = ps.countP (needsGeneration ov) ∧
    (runPipeline ov oracle chunks).readErr = none ∧
    (ps.length = 25 → (ps.filter (needsGeneration ov)).length = 5 →
      (oracle 0).subtype = "success" → (oracle 0).products.length = 5 →
      (runPipeline ov oracle chunks).batches = [ps.filter (needsGeneration ov)] ∧
      (runPipeline ov oracle chunks).batchResults
        = [.ok (List.zipWith mkOutLine (ps.filter (needsGeneration ov)) (oracle 0).products)] ∧
      (runPipeline ov oracle chunks).skipped = 20 ∧
      (runPipeline ov oracle chunks).completed = 5) := by
  have hrp := runPipeline_of_parsedOf ov oracle chunks ps hparse
  refine ⟨by rw [hrp], by rw [hrp], by rw [hrp], by rw [hrp], ?_⟩
  intro h25 h5 hsub hlen
  have hchunk : chunksOf BATCH_SIZE (ps.filter (needsGeneration ov))
      = [ps.filter (needsGeneration ov)] := by
    refine chunksOf_singleton_of_short _ _ ?_ ?_
    · intro hnil
      rw [hnil] at h5
      simp at h5
    · rw [h5]
      simp [BATCH_SIZE]
  have hproc : processBatch (ps.filter (needsGeneration ov)) (oracle 0)
      = .ok (List.zipWith mkOutLine (ps.filter (needsGeneration ov)) (oracle 0).products) := by
    rw [processBatch, generateBatch, if_neg (by simp [hsub])]
    exact emitLines_of_length_eq _ _ (by rw [hlen, h5])
  have hskip : ps.countP (fun p => !needsGeneration ov p) = 20 := by
    have h1 := countP_not_add (needsGeneration ov) ps
    have h2 := List.countP_eq_length_filter (needsGeneration ov) ps
    omega
  refine ⟨?_, ?_, ?_, ?_⟩
  · rw [hrp, hchunk]
  · rw [hrp]
    show (chunksOf BATCH_SIZE (ps.filter (needsGeneration ov))).mapIdx
        (fun i b => processBatch b (oracle i)) = _
    rw [hchunk]
    simp only [List.mapIdx_cons, List.mapIdx_nil, hproc]
  · rw [hrp]
    exact hskip
  · rw [hrp]
    show ((chunksOf BATCH_SIZE (ps.filter (needsGeneration ov))).zip
        ((chunksOf BATCH_SIZE (ps.filter (needsGeneration ov))).mapIdx
          (fun i b => processBatch b (oracle i)))).foldl
        (fun a br => match br.2 with | .ok _ => a + br.1.length | .error _ => a) 0 = 5
    rw [hchunk]
    simp only [List.mapIdx_cons, List.mapIdx_nil, hproc, List.zip_cons_cons, List.zip_nil_right,
      List.foldl_cons, List.foldl_nil]
    rw [h5]

/-- A skip-worthy fixture record: both text fields present and non-blank. -/
def c4skipLine : String :=
  "\x7b\"description\":\"d\",\"metafields\":[\x7b\"key\":\"longDescription\",\"value\":\"x\"\x7d]\x7d\n"

/-- An eligible fixture record: no description at all. -/
def c4genLine : String := "\x7b\"id\":1\x7d\n"

def c4chunks : List String := List.replicate 20 c4skipLine ++ List.replicate 5 c4genLine

def c4oracle : Nat → GenResult := fun _ => ⟨"success", [], List.replicate 5 ⟨"a", "b"⟩⟩

def c4products : List Product := (parsedOf (extractLines c4chunks)).toOption.getD []

theorem claim_C4_witness :
    parsedOf (extractLines c4chunks) = .ok c4products ∧
    c4products.length = 25 ∧
    (c4products.filter (needsGeneration false)).length = 5 ∧
    (runPipeline false c4oracle c4chunks).batches = [c4products.filter (needsGeneration false)] ∧
    (runPipeline false c4oracle c4chunks).skipped = 20 ∧
    (runPipeline false c4oracle c4chunks).completed = 5 := by
  have hparse : parsedOf (extractLines c4chunks) = .ok c4products := rfl
  have h := claim_C4 false c4oracle c4chunks c4products hparse
  have hsc := h.2.2.2.2 (by decide) (by decide) rfl (by decide)
  exact ⟨hparse, by decide, by decide, hsc.1, hsc.2.2.1, hsc.2.2.2⟩

/-! ## Claim C9 -/

/-- Claim C9: an input stream whose final line is not newline-terminated
never has that trailing partial line parsed or processed — the carry-over
buffer is simply discarded at end of input, so appending such a fragment
changes nothing about the run: it is neither generated, counted as
skipped, nor reported as malformed.  Blank and whitespace-only lines are
likewise silently ignored by the read loop. -/
theorem claim_C9 :
    (∀ (chunks : List String) (frag : String), '\n' ∉ frag.data →
      extractLines (chunks ++ [frag]) = extractLines chunks) ∧
    (∀ (ov : Bool) (oracle : Nat → GenResult) (chunks : List String) (frag : String),
      '\n' ∉ frag.data →
      runPipeline ov oracle (chunks ++ [frag]) = runPipeline ov oracle chunks) ∧
    (∀ (ov : Bool) (st : GenState) (ws : String) (ls1 ls2 : List String),
      (jsTrim ws == "") = true →
      readLines ov (ls1 ++ ws :: ls2) st = readLines ov (ls1 ++ ls2) st) := by
  have hextract : ∀ (chunks : List String) (frag : String), '\n' ∉ frag.data →
      extractLines (chunks ++ [frag]) = extractLines chunks := by
    intro chunks frag hfrag
    rw [extractLines, extractLines,
      feedChunks_eq_splitLines _ [] (by simp),
      feedChunks_eq_splitLines _ [] (by simp)]
    simp only [List.nil_append, List.map_append, List.map_cons, List.map_nil,
      List.flatten_append, List.flatten_cons, List.flatten_nil, List.append_nil]
    rw [splitLines_append]
    have hnn : '\n' ∉ ((splitLines ((chunks.map String.data).flatten)).2 ++ frag.data) := by
      intro hmem
      rcases List.mem_append.mp hmem with hmem | hmem
      · exact splitLines_rem_no_newline _ hmem
      · exact hfrag hmem
    rw [splitLines_no_newline _ hnn]
    simp
  refine ⟨hextract, ?_, ?_⟩
  · intro ov oracle chunks frag hfrag
    rw [runPipeline, runPipeline, hextract chunks frag hfrag]
  · intro ov st ws ls1 ls2 hws
    induction ls1 generalizing st with
    | nil =>
      have hpl : procLine ov st ws = .ok st := by
        rw [procLine]
        simp [hws]
      rw [List.nil_append, List.nil_append, readLines, hpl]
    | cons l ls1 ih =>
      rw [List.cons_append, List.cons_append, readLines, readLines]
      match hpl : procLine ov st l with
      | .ok st2 =>
        show readLines ov (ls1 ++ ws :: ls2) st2 = readLines ov (ls1 ++ ls2) st2
        exact ih st2
      | .error e => rfl

theorem claim_C9_witness :
    (('\n' ∉ ("\x7b\"id\":2\x7d" : String).data) ∧
      extractLines (["\x7b\"id\":1\x7d\n"] ++ ["\x7b\"id\":2\x7d"]) = extractLines ["\x7b\"id\":1\x7d\n"]) ∧
    runPipeline false (fun _ => ⟨"success", [], []⟩) (["\x7b\"id\":1\x7d\n"] ++ ["\x7b\"id\":2\x7d"])
      = runPipeline false (fun _ => ⟨"success", [], []⟩) ["\x7b\"id\":1\x7d\n"] ∧
    ((jsTrim "  " == "") = true ∧
      readLines false ([] ++ "  " :: []) initGenState = readLines false ([] ++ []) initGenState) :=
  ⟨⟨by decide, claim_C9.1 ["\x7b\"id\":1\x7d\n"] "\x7b\"id\":2\x7d" (by decide)⟩,
   claim_C9.2.1 false (fun _ => ⟨"success", [], []⟩) ["\x7b\"id\":1\x7d\n"] "\x7b\"id\":2\x7d" (by decide),
   ⟨by decide, claim_C9.2.2 false initGenState "  " [] [] (by decide)⟩⟩

/-! ## Claim C6 -/

theorem firstErrorIn_spec (rs : List (Except String (List Json))) :
    ∀ (i : Nat) (e : String),
    (∀ j, j < i → ∃ v, rs[j]? = some (.ok v)) →
    rs[i]? = some (.error e) →
    firstErrorIn rs = some e := by
  induction rs with
  | nil =>
    intro i e _ h
    simp at h
  | cons r rs ih =>
    intro i e hok herr
    match i with
    | 0 =>
      rw [List.getElem?_cons_zero, Option.some_inj] at herr
      subst herr
      rfl
    | i + 1 =>
      obtain ⟨v, hv⟩ := hok 0 (by omega)
      rw [List.getElem?_cons_zero, Option.some_inj] at hv
      subst hv
      rw [List.getElem?_cons_succ] at herr
      show firstErrorIn rs = some e
      exact ih i e (fun j hj => by
        have := hok (j + 1) (by omega)
        rwa [List.getElem?_cons_succ] at this) herr

/-- Claim C6: every error in the taxonomy — a non-2xx HTTP response, an
application-level error value in the response body, a non-success
generation result subtype, a malformed input line — propagates uncaught
(each becomes the thrown error of its step), reaches the top of the run,
is printed exactly once to the error stream with the failure marker, and
causes exit code 1.  In particular, when exactly one generation call in a
run returns a non-success subtype, the run's final error is that call's
`AI error: <subtype>: <messages>` (the error stream carries the subtype
and the messages), the exit code is 1, and that batch's result carries no
output lines. -/
theorem claim_C6 :
    (∀ (resp : HttpResponse) (env : GraphQLEnvelope), resp.ok = false →
      shopifyStep resp env
        = .error ("Shopify API " ++ toString resp.status ++ ": " ++ resp.bodyText)) ∧
    (∀ (resp : HttpResponse) (env : GraphQLEnvelope) (e : Json),
      resp.ok = true → env.errors = some e → jsTruthy e = true →
      shopifyStep resp env = .error ("GraphQL: " ++ jsonStringify e)) ∧
    (∀ (batch : List Product) (res : GenResult), res.subtype ≠ "success" →
      processBatch batch res
        = .error ("AI error: " ++ res.subtype ++ ": " ++ String.intercalate ", " res.errors)) ∧
    (∀ (ov : Bool) (st : GenState) (line : String),
      (jsTrim line == "") = false → jsonParse (jsTrim line) = none →
      procLine ov st line = .error "SyntaxError: unexpected JSON input") ∧
    (∀ e : String, catchHandler (some e) = (["\x1b[31m✘\x1b[0m " ++ e], 1)) ∧
    (∀ (ov : Bool) (oracle : Nat → GenResult) (chunks : List String) (ps : List Product)
      (i : Nat),
      parsedOf (extractLines chunks) = .ok ps →
      i < (chunksOf BATCH_SIZE (ps.filter (needsGeneration ov))).length →
      (oracle i).subtype ≠ "success" →
      (∀ j, j < (chunksOf BATCH_SIZE (ps.filter (needsGeneration ov))).length → j ≠ i →
        (oracle j).subtype = "success" ∧
        (oracle j).products.length
          = ((chunksOf BATCH_SIZE (ps.filter (needsGeneration ov))).getD j []).length) →
      finalError (runPipeline ov oracle chunks)
        = some ("AI error: " ++ (oracle i).subtype ++ ": "
            ++ String.intercalate ", " (oracle i).errors) ∧
      (runPipeline ov oracle chunks).batchResults[i]?
        = some (.error ("AI error: " ++ (oracle i).subtype ++ ": "
            ++ String.intercalate ", " (oracle i).errors)) ∧
      catchHandler (finalError (runPipeline ov oracle chunks))
        = (["\x1b[31m✘\x1b[0m " ++ ("AI error: " ++ (oracle i).subtype ++ ": "
            ++ String.intercalate ", " (oracle i).errors)], 1)) := by
  refine ⟨?_, ?_, ?_, ?_, fun e => rfl, ?_⟩
  · intro resp env hok
    rw [shopifyStep, if_pos (by simp [hok])]
  · intro resp env e hok herr htruthy
    rw [shopifyStep, if_neg (by simp [hok]), herr]
    simp [htruthy]
  · intro batch res hsub
    rw [processBatch, generateBatch, if_pos hsub]
  · intro ov st line hblank hmal
    rw [procLine]
    simp only [hblank, Bool.false_eq_true, if_false, hmal]
  · intro ov oracle chunks ps i hparse hi hsub hothers
    have hrp := runPipeline_of_parsedOf ov oracle chunks ps hparse
    set batches := chunksOf BATCH_SIZE (ps.filter (needsGeneration ov)) with hbdef
    have hresults : (runPipeline ov oracle chunks).batchResults
        = batches.mapIdx (fun i b => processBatch b (oracle i)) := by
      rw [hrp]
    have hmsg : processBatch (batches.getD i []) (oracle i)
        = .error ("AI error: " ++ (oracle i).subtype ++ ": "
            ++ String.intercalate ", " (oracle i).errors) := by
      rw [processBatch, generateBatch, if_pos hsub]
    have hgetres : ∀ j, j < batches.length →
        (batches.mapIdx (fun i b => processBatch b (oracle i)))[j]?
          = some (processBatch (batches.getD j []) (oracle j)) := by
      intro j hj
      rw [List.getElem?_mapIdx, List.getElem?_eq_getElem hj]
      rw [List.getD_eq_getElem _ _ hj]
      rfl
    have herri : (batches.mapIdx (fun i b => processBatch b (oracle i)))[i]?
        = some (.error ("AI error: " ++ (oracle i).subtype ++ ": "
            ++ String.intercalate ", " (oracle i).errors)) := by
      rw [hgetres i hi, hmsg]
    have hokj : ∀ j, j < i → ∃ v,
        (batches.mapIdx (fun i b => processBatch b (oracle i)))[j]? = some (.ok v) := by
      intro j hj
      have hjlt : j < batches.length := by omega
      obtain ⟨hsucc, hlen⟩ := hothers j hjlt (by omega)
      refine ⟨List.zipWith mkOutLine (batches.getD j []) (oracle j).products, ?_⟩
      rw [hgetres j hjlt, processBatch, generateBatch, if_neg (by simp [hsucc])]
      rw [Option.some_inj]
      exact emitLines_of_length_eq _ _ hlen
    have hfin : finalError (runPipeline ov oracle chunks)
        = some ("AI error: " ++ (oracle i).subtype ++ ": "
            ++ String.intercalate ", " (oracle i).errors) := by
      rw [finalError, hrp]
      show firstErrorIn (batches.mapIdx (fun i b => processBatch b (oracle i))) = _
      exact firstErrorIn_spec _ i _ hokj herri
    refine ⟨hfin, ?_, by rw [hfin]; rfl⟩
    rw [hresults]
    exact herri

def c6chunks : List String := ["\x7b\"id\":1\x7d\n"]

def c6oracle : Nat → GenResult := fun _ => ⟨"error_max_turns", ["boom"], []⟩

def c6products : List Product := (parsedOf (extractLines c6chunks)).toOption.getD []

theorem claim_C6_witness :
    shopifyStep ⟨false, 500, "boom"⟩ ⟨none, .null, none⟩ = .error "Shopify API 500: boom" ∧
    finalError (runPipeline false c6oracle c6chunks)
      = some "AI error: error_max_turns: boom" ∧
    catchHandler (finalError (runPipeline false c6oracle c6chunks))
      = (["\x1b[31m✘\x1b[0m AI error: error_max_turns: boom"], 1) := by
  have h1 := claim_C6.1 ⟨false, 500, "boom"⟩ ⟨none, .null, none⟩ rfl
  have hone : chunksOf BATCH_SIZE (c6products.filter (needsGeneration false))
      = [c6products.filter (needsGeneration false)] :=
    chunksOf_singleton_of_short _ _ (List.ne_nil_of_length_pos (by decide)) (by decide)
  have hsc := claim_C6.2.2.2.2.2 false c6oracle c6chunks c6products 0 rfl
    (by rw [hone]; decide) (by decide)
    (by
      intro j hj hne
      rw [hone] at hj
      simp at hj
      omega)
  have hstr : ("AI error: " ++ (c6oracle 0).subtype ++ ": "
      ++ String.intercalate ", " (c6oracle 0).errors) = "AI error: error_max_turns: boom" := rfl
  refine ⟨h1, ?_, ?_⟩
  · have h2 := hsc.1
    rwa [hstr] at h2
  · have h3 := hsc.2.2
    rw [hstr] at h3
    exact h3

/-! ## The exporter (`export-products.js`, `run`)

Top-level pages of products are fetched sequentially; for each product
the three sub-collections are fetched (keyed by the product's `id`, each
itself fully paginated behind its oracle), every variant additionally gets
its own metafields (keyed by the variant's `id`), and the enriched object
`{...product, metafields, variants, media}` is emitted as one line.  A
failing sub-fetch fails the product and the run, so nothing partially
merged is ever printed. -/

/-- The JavaScript spread update `{...o, k: v}`: an existing key keeps its
position and gets the new value, a new key is appended. -/
def objSet : List (String × Json) → String → Json → List (String × Json)
  | [], k, v => [(k, v)]
  | (k2, w) :: rest, k, v =>
    if k2 == k then (k2, v) :: rest else (k2, w) :: objSet rest k v

/-- `{...j, k: v}` on an arbitrary value (spreading a non-object
contributes no entries). -/
def spreadWith (j : Json) (k : String) (v : Json) : Json :=
  match j with
  | .obj fs => .obj (objSet fs k v)
  | _ => .obj [(k, v)]

/-- The enriched output object
`{...product, metafields, variants, media}`. -/
def exportMerge (product : Json) (metafields variants media : List Json) : Json :=
  spreadWith (spreadWith (spreadWith product "metafields" (.arr metafields))
    "variants" (.arr variants)) "media" (.arr media)

/-- `node.id` (a missing id reads as JSON null). -/
def idOf (j : Json) : Json :=
  match j with
  | .obj fs => (objGet fs "id").getD .null
  | _ => .null

/-- The three per-product sub-collection fetchers plus the per-node
metafield fetcher, each standing for a fully drained `fetchAllPages` call
keyed by the node id (an `Except.error` is a failed page fetch, which
aborts the run). -/
structure SubFetchers where
  variantsOf : Json → Except String (List Json)
  mediaOf : Json → Except String (List Json)
  metafieldsOf : Json → Except String (List Json)

/-- `Promise.all` over a list of fallible fetches: all succeed, in order,
or the first rejection aborts. -/
def mapME (f : α → Except String β) : List α → Except String (List β)
  | [] => .ok []
  | a :: l =>
    match f a with
    | .error e => .error e
    | .ok b => (mapME f l).map (fun bs => b :: bs)

/-- `{...variant, metafields: await fetchMetafields(variant.id)}`. -/
def enrichVariant (sf : SubFetchers) (v : Json) : Except String Json :=
  (sf.metafieldsOf (idOf v)).map (fun ms => spreadWith v "metafields" (.arr ms))

/-- Resolve one product completely: variants, media and product
metafields, then each variant's metafields, then the merge.  Any failing
sub-fetch fails the whole product. -/
def exportProduct (sf : SubFetchers) (p : Json) : Except String Json :=
  match sf.variantsOf (idOf p) with
  | .error e => .error e
  | .ok vs =>
    match sf.mediaOf (idOf p) with
    | .error e => .error e
    | .ok md =>
      match sf.metafieldsOf (idOf p) with
      | .error e => .error e
      | .ok ms =>
        match mapME (enrichVariant sf) vs with
        | .error e => .error e
        | .ok vs2 => .ok (exportMerge p ms vs2 md)

/-- The exporter's outer page loop: emit every product of the current
page fully enriched, then follow `pageInfo` to the next page. -/
def exportLoop (server : Option String → Connection Json) (sf : SubFetchers) :
    Nat → Option String → List Json → Option (Except String (List Json))
  | 0, _, _ => none
  | fuel + 1, cursor, acc =>
    let conn := server cursor
    match mapME (exportProduct sf) (conn.edges.map Edge.node) with
    | .error e => some (.error e)
    | .ok outs =>
      if conn.pageInfo.hasNextPage then
        exportLoop server sf fuel conn.pageInfo.endCursor (acc ++ outs)
      else some (.ok (acc ++ outs))

def exportRun (server : Option String → Connection Json) (sf : SubFetchers) (fuel : Nat) :
    Option (Except String (List Json)) :=
  exportLoop server sf fuel none []

theorem mapME_mem {α β : Type} (f : α → Except String β) (l : List α) :
    ∀ (l2 : List β), mapME f l = .ok l2 → ∀ b ∈ l2, ∃ a ∈ l, f a = .ok b := by
  induction l with
  | nil =>
    intro l2 h b hb
    rw [mapME] at h
    cases h
    simp at hb
  | cons a l ih =>
    intro l2 h b hb
    rw [mapME] at h
    split at h
    · exact absurd h (by simp)
    · rename_i b1 ha
      match hl : mapME f l with
      | .error e =>
        rw [hl] at h
        exact absurd h (by simp [Except.map])
      | .ok bs =>
        rw [hl] at h
        simp only [Except.map] at h
        cases h
        rcases List.mem_cons.mp hb with hb | hb
        · exact ⟨a, by simp, by rw [ha, hb]⟩
        · obtain ⟨a2, ha2, hfa2⟩ := ih bs hl b hb
          exact ⟨a2, by simp [ha2], hfa2⟩

theorem exportLoop_mem (server : Option String → Connection Json) (sf : SubFetchers) :
    ∀ (fuel : Nat) (cursor : Option String) (acc outs : List Json),
    exportLoop server sf fuel cursor acc = some (.ok outs) →
    ∀ o ∈ outs, o ∈ acc ∨ ∃ p, exportProduct sf p = .ok o := by
  intro fuel
  induction fuel with
  | zero =>
    intro cursor acc outs h
    rw [exportLoop] at h
    cases h
  | succ f ih =>
    intro cursor acc outs h o ho
    rw [exportLoop] at h
    split at h
    · exact absurd h (by simp)
    · rename_i page hm
      split at h
      · rcases ih _ _ _ h o ho with hacc | hex
        · rcases List.mem_append.mp hacc with hacc | hpage
          · exact Or.inl hacc
          · obtain ⟨p, _, hp⟩ := mapME_mem _ _ page hm o hpage
            exact Or.inr ⟨p, hp⟩
        · exact Or.inr hex
      · rw [Option.some_inj, Except.ok.injEq] at h
        subst h
        rcases List.mem_append.mp ho with hacc | hpage
        · exact Or.inl hacc
        · obtain ⟨p, _, hp⟩ := mapME_mem _ _ page hm o hpage
          exact Or.inr ⟨p, hp⟩

theorem objSet_append_of_no_key (fs : List (String × Json)) (k : String) (v : Json)
    (h : ∀ kv ∈ fs, kv.1 ≠ k) :
    objSet fs k v = fs ++ [(k, v)] := by
  induction fs with
  | nil => rfl
  | cons kv rest ih =>
    obtain ⟨k2, w⟩ := kv
    have hk2 : k2 ≠ k := h (k2, w) (by simp)
    rw [objSet, if_neg (by simp [hk2]), ih (fun x hx => h x (by simp [hx]))]
    rfl

/-! ## Claim C7 -/

/-- Claim C7: every record the exporter emits is complete — it is the
base record merged with its fully fetched metafields, variants (each
variant carrying its own fully fetched metafields) and media, and no
partially merged record is ever emitted (the loop only emits values
produced by a fully successful `exportProduct`); for a record with zero
sub-resources the emitted object is the base record plus empty
sub-collection arrays under the keys `metafields`, `variants` and
`media`, with no key missing. -/
theorem claim_C7 :
    (∀ (server : Option String → Connection Json) (sf : SubFetchers) (fuel : Nat)
      (outs : List Json), exportRun server sf fuel = some (.ok outs) →
      ∀ o ∈ outs, ∃ p, exportProduct sf p = .ok o) ∧
    (∀ (sf : SubFetchers) (p : Json) (out : Json), exportProduct sf p = .ok out →
      ∃ vs md ms vs2,
        sf.variantsOf (idOf p) = .ok vs ∧
        sf.mediaOf (idOf p) = .ok md ∧
        sf.metafieldsOf (idOf p) = .ok ms ∧
        mapME (enrichVariant sf) vs = .ok vs2 ∧
        out = exportMerge p ms vs2 md) ∧
    (∀ (sf : SubFetchers) (v : Json) (out : Json), enrichVariant sf v = .ok out →
      ∃ ms, sf.metafieldsOf (idOf v) = .ok ms ∧
        out = spreadWith v "metafields" (.arr ms)) ∧
    (∀ (sf : SubFetchers) (fs : List (String × Json)),
      (∀ kv ∈ fs, kv.1 ≠ "metafields" ∧ kv.1 ≠ "variants" ∧ kv.1 ≠ "media") →
      sf.variantsOf (idOf (.obj fs)) = .ok [] →
      sf.mediaOf (idOf (.obj fs)) = .ok [] →
      sf.metafieldsOf (idOf (.obj fs)) = .ok [] →
      exportProduct sf (.obj fs)
        = .ok (.obj (fs ++ [("metafields", .arr []), ("variants", .arr []),
            ("media", .arr [])]))) := by
  have hmerge : ∀ (fs : List (String × Json)),
      (∀ kv ∈ fs, kv.1 ≠ "metafields" ∧ kv.1 ≠ "variants" ∧ kv.1 ≠ "media") →
      exportMerge (.obj fs) [] [] []
        = .obj (fs ++ [("metafields", .arr []), ("variants", .arr []), ("media", .arr [])]) := by
    intro fs h
    rw [exportMerge, spreadWith, objSet_append_of_no_key fs _ _ (fun kv hkv => (h kv hkv).1)]
    rw [spreadWith, objSet_append_of_no_key _ _ _ ?hv]
    case hv =>
      intro kv hkv
      rcases List.mem_append.mp hkv with hkv | hkv
      · exact (h kv hkv).2.1
      · rw [List.mem_singleton] at hkv
        subst hkv
        decide
    rw [spreadWith, objSet_append_of_no_key _ _ _ ?hm]
    case hm =>
      intro kv hkv
      rcases List.mem_append.mp hkv with hkv | hkv
      · rcases List.mem_append.mp hkv with hkv | hkv
        · exact (h kv hkv).2.2
        · rw [List.mem_singleton] at hkv
          subst hkv
          decide
      · rw [List.mem_singleton] at hkv
        subst hkv
        decide
    simp
  refine ⟨?_, ?_, ?_, ?_⟩
  · intro server sf fuel outs h o ho
    rcases exportLoop_mem server sf fuel none [] outs h o ho with hacc | hex
    · simp at hacc
    · exact hex
  · intro sf p out h
    rw [exportProduct] at h
    split at h
    · exact absurd h (by simp)
    · rename_i vs hvs
      split at h
      · exact absurd h (by simp)
      · rename_i md hmd
        split at h
        · exact absurd h (by simp)
        · rename_i ms hms
          split at h
          · exact absurd h (by simp)
          · rename_i vs2 hvs2
            rw [Except.ok.injEq] at h
            exact ⟨vs, md, ms, vs2, hvs, hmd, hms, hvs2, h.symm⟩
  · intro sf v out h
    rw [enrichVariant] at h
    match hms : sf.metafieldsOf (idOf v) with
    | .error e =>
      rw [hms] at h
      exact absurd h (by simp [Except.map])
    | .ok ms =>
      rw [hms] at h
      simp only [Except.map, Except.ok.injEq] at h
      exact ⟨ms, rfl, h.symm⟩
  · intro sf fs hkeys hvs hmd hms
    rw [exportProduct, hvs, hmd, hms]
    show (match mapME (enrichVariant sf) [] with
      | .error e => Except.error e
      | .ok vs2 => Except.ok (exportMerge (.obj fs) [] vs2 [])) = _
    rw [mapME]
    show Except.ok (exportMerge (.obj fs) [] [] []) = _
    rw [hmerge fs hkeys]

theorem claim_C7_witness :
    (∀ kv ∈ [("id", Json.num 1), ("title", Json.str "t")],
      kv.1 ≠ "metafields" ∧ kv.1 ≠ "variants" ∧ kv.1 ≠ "media") ∧
    exportProduct ⟨fun _ => .ok [], fun _ => .ok [], fun _ => .ok []⟩
        (.obj [("id", Json.num 1), ("title", Json.str "t")])
      = .ok (.obj [("id", Json.num 1), ("title", Json.str "t"),
          ("metafields", .arr []), ("variants", .arr []), ("media", .arr [])]) := by
  refine ⟨by decide, ?_⟩
  have h := claim_C7.2.2.2 ⟨fun _ => .ok [], fun _ => .ok [], fun _ => .ok []⟩
    [("id", Json.num 1), ("title", Json.str "t")] (by decide) rfl rfl rfl
  exact h

/-! ## Claim C8 -/

/-- Claim C8: serializing an enriched record to its single JSON output
line and parsing that line back yields the in-memory enriched record
exactly (and the same round-trip holds for every JSON value the pipelines
print). -/
theorem claim_C8 (product : Json) (metafields variants media : List Json) :
    jsonParse (jsonStringify (exportMerge product metafields variants media))
      = some (exportMerge product metafields variants media) :=
  jsonParse_jsonStringify _

end ECom
